import Mathlib

/-!
# Verification of the Bayesian decision-tree engine

Shallow embedding of `bayesian_decision_tree/base.py` and
`bayesian_decision_tree/base_perpendicular.py`.

Modelling conventions:
* Feature matrices are `List (List ℚ)` (row major), targets are `List ℚ`;
  machine floats are modelled by exact rationals.
* The conjugate model family (classification / regression math) lives in
  concrete subclasses outside these two files; it is modelled from the spec's
  §6 plugin interface as an abstract `ModelFamily` structure whose posterior
  type is a parameter.
* The mutable `Node` object of the Python code becomes an inductive `Tree`:
  a Python node is a leaf iff `split_value is None` iff both children are
  `None`, which the constructors encode.  The fields kept on each constructor
  are exactly the fields the Python code sets on that kind of node
  (`n_dim` stays `Option Nat` because sealed leaf children never get it set).
* Fallible queries return `Except TreeError` instead of raising.
-/

namespace BayesTree

/-- The spec §6 "Model Family plugin interface".  Modelled from the spec:
the concrete conjugate families (Dirichlet classification, normal-inverse-gamma
regression) are not part of the two source files; only the abstract methods
`_compute_log_p_data_no_split`, `_compute_log_p_data_split`,
`_compute_posterior` and `_predict_leaf` are declared there.  Each method
reads the node's `prior`, so every field takes the prior (of posterior type
`P`) explicitly. -/
structure ModelFamily (P : Type) where
  /-- `_compute_log_p_data_no_split(y)` of the node with the given prior. -/
  logPDataNoSplit : P → List ℚ → ℚ
  /-- `_compute_log_p_data_split(y_sorted, split_indices, n_dim)`:
  one marginal log-likelihood per candidate split position. -/
  logPDataSplit : P → List ℚ → List Nat → Nat → List ℚ
  /-- `_compute_posterior(y, delta)` (the Python default argument is `delta=1`). -/
  computePosterior : P → List ℚ → ℚ → P
  /-- `_predict_leaf()` applied to a posterior: the point prediction. -/
  predictLeaf : P → ℚ

/-- A small executable model family over posterior type `List ℚ`, used to
instantiate the abstract interface on concrete data: the "posterior" is the
observed target slice, the point prediction its first element, and the
marginal log-likelihoods reward target-pure slices (with a `1/4` penalty per
split), so a split is accepted exactly when it separates a two-class target. -/
def trivialNoSplitScore : List ℚ → ℚ :=
  fun ys => if ys.dedup.length ≤ 1 then 0 else -1

/-- The per-candidate split scores of `trivialFamily`. -/
def trivialSplitScores : List ℚ → List Nat → List ℚ :=
  fun ys idxs => idxs.map fun k =>
    trivialNoSplitScore (ys.take k) + trivialNoSplitScore (ys.drop k) - 1/4

def trivialFamily : ModelFamily (List ℚ) where
  logPDataNoSplit := fun _ ys => trivialNoSplitScore ys
  logPDataSplit := fun _ ys idxs _ => trivialSplitScores ys idxs
  computePosterior := fun _ ys _ => ys
  predictLeaf := fun post => post.headD 0

/-- A fitted tree node.  `leaf` carries the fields a Python node has when
`split_value is None`; `node` additionally carries the split fields set at
`base_perpendicular.py:159-169`. -/
inductive Tree (P : Type) where
  | leaf (level : Nat) (nData : Nat) (nDim : Option Nat) (posterior : P)
  | node (level : Nat) (nData : Nat) (nDim : Option Nat) (posterior : P)
         (splitDimension : Nat) (splitFeatureName : String) (splitValue : ℚ)
         (logPDataNoSplit : ℚ) (bestLogPDataSplit : ℚ)
         (child1 : Tree P) (child2 : Tree P)
  deriving DecidableEq

namespace Tree

variable {P : Type}

/-- `is_leaf()`: true iff `split_value is None`, i.e. the `leaf` constructor. -/
def isLeafB : Tree P → Bool
  | .leaf _ _ _ _ => true
  | .node _ _ _ _ _ _ _ _ _ _ _ => false

/-- The node's `posterior` field. -/
def posterior : Tree P → P
  | .leaf _ _ _ p => p
  | .node _ _ _ p _ _ _ _ _ _ _ => p

/-- The node's `n_data` field. -/
def nData : Tree P → Nat
  | .leaf _ nd _ _ => nd
  | .node _ nd _ _ _ _ _ _ _ _ _ => nd

/-- The node's `n_dim` field (`none` when it was never set). -/
def nDim : Tree P → Option Nat
  | .leaf _ _ d _ => d
  | .node _ _ d _ _ _ _ _ _ _ _ => d

/-- The node's `level` field. -/
def level : Tree P → Nat
  | .leaf l _ _ _ => l
  | .node l _ _ _ _ _ _ _ _ _ _ => l

/-- `get_depth()` / `_update_depth`: the maximum `level` over all leaves. -/
def depth : Tree P → Nat
  | .leaf l _ _ _ => l
  | .node _ _ _ _ _ _ _ _ _ c1 c2 => max c1.depth c2.depth

/-- `get_n_leaves()` / `_update_n_leaves`: the number of leaves. -/
def nLeaves : Tree P → Nat
  | .leaf _ _ _ _ => 1
  | .node _ _ _ _ _ _ _ _ _ c1 c2 => c1.nLeaves + c2.nLeaves

end Tree

/-- `X[i, dim]` for the row-major rational matrix model. -/
def Xval (X : List (List ℚ)) (i dim : Nat) : ℚ :=
  (X.getD i []).getD dim 0

/-- `_compute_child1_and_child2_indices(X, dense)`
(`base_perpendicular.py:192-200`): `indices1 = np.where(X[:, dim] < v)[0]` and
`indices2 = np.where(X[:, dim] >= v)[0]`, both in increasing row order. -/
def computeChild1AndChild2Indices (X : List (List ℚ)) (dim : Nat) (v : ℚ) :
    List Nat × List Nat :=
  ((List.range X.length).filter (fun i => decide (Xval X i dim < v)),
   (List.range X.length).filter (fun i => decide (v ≤ Xval X i dim)))

/-! ## Induction: the split search and recursion of `_fit`
(`base_perpendicular.py:81-190`) -/

/-- `split_indices = 1 + np.where(np.diff(X_dim_sorted) != 0)[0]`
(`base_perpendicular.py:119`): the positions, in the sorted order, that
immediately follow a value change — the legal candidate split points. -/
def splitPositions (vals : List ℚ) : List Nat :=
  ((List.range (vals.length - 1)).filter
    (fun j => decide (vals.getD (j + 1) 0 ≠ vals.getD j 0))).map (· + 1)

/-- `np.argmax`: the index of the first maximal entry (`0` on `[]`). -/
def argmaxAux : List ℚ → ℚ → Nat → Nat → Nat
  | [], _, bestIdx, _ => bestIdx
  | x :: xs, bestVal, bestIdx, cur =>
    if bestVal < x then argmaxAux xs x cur (cur + 1)
    else argmaxAux xs bestVal bestIdx (cur + 1)

/-- `log_p_data_split.argmax()`. -/
def argmaxIdx : List ℚ → Nat
  | [] => 0
  | x :: xs => argmaxAux xs x 0 1

/-- The loop state of the split search (`base_perpendicular.py:108-133`):
`best_log_p_data_split`, `best_split_index`, `best_split_dimension`
(the latter two start at `-1`). -/
structure SearchState where
  best : ℚ
  bestIdx : Int
  bestDim : Int
  deriving DecidableEq

/-- One iteration of `for dim in range(n_dim)`
(`base_perpendicular.py:113-133`): collect the candidate positions of this
dimension, skip the dimension if there are none, otherwise score all
candidates with the model family and keep the maximum when it strictly beats
the best so far. -/
def splitSearchStep (F : ModelFamily P) (prior : P) (X : List (List ℚ))
    (y : List ℚ) (sortIdx : List (List Nat)) (nDim : Nat)
    (st : SearchState) (dim : Nat) : SearchState :=
  let sortIndices := sortIdx.getD dim []
  let XDimSorted := sortIndices.map fun i => Xval X i dim
  let splitIdxs := splitPositions XDimSorted
  if splitIdxs.isEmpty then st
  else
    let ySortedDim := sortIndices.map fun i => y.getD i 0
    let lps := F.logPDataSplit prior ySortedDim splitIdxs nDim
    let iMax := argmaxIdx lps
    if st.best < lps.getD iMax 0 then
      ⟨lps.getD iMax 0, (splitIdxs.getD iMax 0 : Int), (dim : Int)⟩
    else st

/-- The whole split-search loop, started with
`best_log_p_data_split = log_p_data_no_split` and sentinel indices `-1`. -/
def splitSearch (F : ModelFamily P) (prior : P) (X : List (List ℚ))
    (y : List ℚ) (sortIdx : List (List Nat)) (nDim : Nat) (logNo : ℚ) :
    SearchState :=
  (List.range nDim).foldl (splitSearchStep F prior X y sortIdx nDim)
    ⟨logNo, -1, -1⟩

/-- `y[sort_indices_by_dim[0]]`: the active targets (in dimension-0 sorted
order; the order is irrelevant to the model-family calls that receive it). -/
def ySorted0 (y : List ℚ) (sortIdx : List (List Nat)) : List ℚ :=
  (sortIdx.headD []).map fun i => y.getD i 0

/-- The node state when no split is accepted (`base_perpendicular.py:187-190`
with the split block skipped): a leaf carrying `n_data`, `n_dim` and the
posterior of the active targets, with all split fields unset. -/
def unsplitLeaf (F : ModelFamily P) (prior : P) (level : Nat)
    (X : List (List ℚ)) (y : List ℚ) (sortIdx : List (List Nat)) : Tree P :=
  Tree.leaf level (sortIdx.headD []).length (some (X.headD []).length)
    (F.computePosterior prior (ySorted0 y sortIdx) 1)

/-- `_fit(X, y, delta, verbose, feature_names, side_name, sort_indices_by_dim)`
(`base_perpendicular.py:81-190`), with recursion depth bounded by an explicit
fuel (the Python recursion needs no bound because every child's active set is
strictly smaller; the top entry point supplies fuel `X.length`, which the
recursion never exhausts for the same reason, and an exhausted call returns
the same unsplit leaf the Python code produces for an unsplittable node).
When a split is accepted the children's sort indices are the parent's rows
filtered by membership in each side (the boolean `active` masks of lines
142-149), child priors anneal via `delta`, and a child with at most one row
or a single distinct target is sealed as a leaf via the parent's
`_compute_posterior` (lines 171-185). -/
def fitAux (F : ModelFamily P) (partitionPrior : ℚ) (X : List (List ℚ))
    (y : List ℚ) (delta : ℚ) (featureNames : List String) :
    P → Nat → List (List Nat) → Nat → Tree P
  | prior, level, sortIdx, 0 => unsplitLeaf F prior level X y sortIdx
  | prior, level, sortIdx, fuel + 1 =>
    let nDim := (X.headD []).length
    let nData := (sortIdx.headD []).length
    let logNo := F.logPDataNoSplit prior (ySorted0 y sortIdx)
    let st := splitSearch F prior X y sortIdx nDim logNo
    if 0 < st.bestIdx then
      let dim := st.bestDim.toNat
      let row := sortIdx.getD dim []
      let k := st.bestIdx.toNat
      let indices1 := row.take k
      let indices2 := row.drop k
      let sortIdx1 := sortIdx.map fun si => si.filter fun i => decide (i ∈ indices1)
      let sortIdx2 := sortIdx.map fun si => si.filter fun i => decide (i ∈ indices2)
      let nData1 := (sortIdx1.headD []).length
      let nData2 := (sortIdx2.headD []).length
      let y1 := indices1.map fun i => y.getD i 0
      let y2 := indices2.map fun i => y.getD i 0
      let priorChild1 := if delta ≠ 0 then F.computePosterior prior y1 delta else prior
      let priorChild2 := if delta ≠ 0 then F.computePosterior prior y2 delta else prior
      let v := (Xval X (indices1.getLastD 0) dim + Xval X (indices2.headD 0) dim) / 2
      let child1 :=
        if 1 < nData1 ∧ 1 < y1.dedup.length then
          fitAux F partitionPrior X y delta featureNames priorChild1 (level + 1) sortIdx1 fuel
        else Tree.leaf (level + 1) nData1 none (F.computePosterior prior y1 1)
      let child2 :=
        if 1 < nData2 ∧ 1 < y2.dedup.length then
          fitAux F partitionPrior X y delta featureNames priorChild2 (level + 1) sortIdx2 fuel
        else Tree.leaf (level + 1) nData2 none (F.computePosterior prior y2 1)
      Tree.node level nData (some nDim)
        (F.computePosterior prior (ySorted0 y sortIdx) 1)
        dim (featureNames.getD dim "") v logNo st.best child1 child2
    else unsplitLeaf F prior level X y sortIdx

/-- `np.argsort(X[:, dim])`: a permutation of the row indices sorting the
column ascending (a stable sort; any sorted permutation satisfies the
invariants the engine relies on). -/
def argsortDim (X : List (List ℚ)) (dim : Nat) : List Nat :=
  List.insertionSort (fun i j => Xval X i dim ≤ Xval X j dim) (List.range X.length)

/-- The `d × n` sorted-index cache computed once on first entry
(`base_perpendicular.py:96-104`). -/
def computeSortIndices (X : List (List ℚ)) : List (List Nat) :=
  (List.range (X.headD []).length).map fun dim => argsortDim X dim

/-- The root `_fit` call made by `fit` (`base.py:90`). -/
def fitTree (F : ModelFamily P) (partitionPrior : ℚ) (X : List (List ℚ))
    (y : List ℚ) (delta : ℚ) (featureNames : List String) (prior : P) :
    Tree P :=
  fitAux F partitionPrior X y delta featureNames prior 0 (computeSortIndices X) X.length

/-- Every split node stores `log_p_data_no_split < best_log_p_data_split`. -/
def Tree.GainPositive : Tree P → Prop
  | .leaf _ _ _ _ => True
  | .node _ _ _ _ _ _ _ lnp blp c1 c2 =>
      lnp < blp ∧ c1.GainPositive ∧ c2.GainPositive

/-- Every split node's `split_dimension` is a legal feature index. -/
def Tree.SplitDimLt (w : Nat) : Tree P → Prop
  | .leaf _ _ _ _ => True
  | .node _ _ _ _ dim _ _ _ _ c1 c2 =>
      dim < w ∧ c1.SplitDimLt w ∧ c2.SplitDimLt w

/-- Every split node's `n_data` is the sum of its children's `n_data`. -/
def Tree.NDataConsistent : Tree P → Prop
  | .leaf _ _ _ _ => True
  | .node _ nd _ _ _ _ _ _ _ c1 c2 =>
      nd = c1.nData + c2.nData ∧ c1.NDataConsistent ∧ c2.NDataConsistent

/-- The rows of the sorted-index cache are each sorted by their dimension's
feature values. -/
def SortedRows (X : List (List ℚ)) (sortIdx : List (List Nat)) : Prop :=
  ∀ dim < sortIdx.length,
    List.Pairwise (fun i j => Xval X i dim ≤ Xval X j dim) (sortIdx.getD dim [])

/-- The rows of the sorted-index cache are permutations of one duplicate-free
active index set. -/
def RowsAligned (sortIdx : List (List Nat)) : Prop :=
  (∀ l ∈ sortIdx, l.Perm (sortIdx.headD [])) ∧ (sortIdx.headD []).Nodup

/-- Invariant carried by the split-search loop state: the best is never below
the no-split log-likelihood, and once a positive `best_split_index` is
recorded, the best strictly beats the no-split log-likelihood, the recorded
dimension is a legal dimension index, and the recorded index is a legal
candidate position of that dimension. -/
def SearchInv (X : List (List ℚ)) (sortIdx : List (List Nat)) (nDim : Nat)
    (logNo : ℚ) (st : SearchState) : Prop :=
  logNo ≤ st.best ∧
  (0 < st.bestIdx →
    logNo < st.best ∧ st.bestDim.toNat < nDim ∧
    st.bestIdx.toNat ∈ splitPositions
      ((sortIdx.getD st.bestDim.toNat []).map fun i => Xval X i st.bestDim.toNat))

/-! ## Pruning (`base.py:180-198`) -/

/-- `_prune()`: a leaf is left alone; a node whose children are both leaves
with equal point predictions reverts to leaf state (clearing all split
fields, keeping `level`, `n_data`, `n_dim`, `posterior` —
`_erase_split_info_base` / `_erase_split_info`); otherwise both children are
pruned; and whenever the depth or leaf count changed, the node is pruned
again.  The Python recursion needs no fuel because every round that changes
anything merges two leaves and so strictly decreases the leaf count; the fuel
`t.nLeaves` supplied by `pruneTree` is enough for the same reason. -/
def pruneAux (F : ModelFamily P) : Nat → Tree P → Tree P
  | 0, t => t
  | _ + 1, .leaf l nd ndim post => .leaf l nd ndim post
  | fuel + 1, .node l nd ndim post dim name v lnp blp c1 c2 =>
    let t' :=
      if c1.isLeafB && c2.isLeafB then
        if F.predictLeaf c1.posterior = F.predictLeaf c2.posterior
        then Tree.leaf l nd ndim post
        else Tree.node l nd ndim post dim name v lnp blp c1 c2
      else Tree.node l nd ndim post dim name v lnp blp
        (pruneAux F fuel c1) (pruneAux F fuel c2)
    if t'.depth ≠ (Tree.node l nd ndim post dim name v lnp blp c1 c2).depth
      ∨ t'.nLeaves ≠ (Tree.node l nd ndim post dim name v lnp blp c1 c2).nLeaves
    then pruneAux F fuel t'
    else t'

/-- The `prune()` entry point. -/
def pruneTree (F : ModelFamily P) (t : Tree P) : Tree P :=
  pruneAux F t.nLeaves t

/-- No node has two leaf children with equal point predictions — the
state `_prune` leaves behind, on which another `_prune` has nothing to do. -/
def Irreducible (F : ModelFamily P) : Tree P → Prop
  | .leaf _ _ _ _ => True
  | .node _ _ _ _ _ _ _ _ _ c1 c2 =>
      Irreducible F c1 ∧ Irreducible F c2 ∧
      ¬(c1.isLeafB = true ∧ c2.isLeafB = true ∧
        F.predictLeaf c1.posterior = F.predictLeaf c2.posterior)

/-- Merge coherence of the model family on a tree: whenever a node's two
children carry posteriors with equal point predictions, the node's own
posterior predicts that same value.  This is the property of the conjugate
families that makes the code's documented claim "pruning only removes splits
that don't change predictions" (`base.py:53-59`) true; the abstract interface
of the two source files cannot entail it, so it is an explicit hypothesis. -/
def coherentB (F : ModelFamily P) : Tree P → Bool
  | .leaf _ _ _ _ => true
  | .node _ _ _ post _ _ _ _ _ c1 c2 =>
      (!(decide (F.predictLeaf c1.posterior = F.predictLeaf c2.posterior))
        || decide (F.predictLeaf post = F.predictLeaf c1.posterior))
      && coherentB F c1 && coherentB F c2

/-! ## Per-row prediction paths -/

/-- One step of a prediction path:
`(split_dimension, split_feature_name, split_value, went_right)`. -/
abbrev PathStep := Nat × String × ℚ × Bool

/-- The path a single row takes from the root to its leaf: one
`(split_dimension, split_feature_name, split_value, went_right)` step per
split node traversed, in root-to-leaf order, with `went_right` true iff the
row's value at the split dimension is `≥ split_value`. -/
def rowPath : Tree P → List ℚ → List PathStep
  | .leaf _ _ _ _, _ => []
  | .node _ _ _ _ dim name v _ _ c1 c2, row =>
    if row.getD dim 0 < v then (dim, name, v, false) :: rowPath c1 row
    else (dim, name, v, true) :: rowPath c2 row

/-- Spec §8 concrete scenario 1: four 1-D rows whose first two targets are
`0` and last two are `1`. -/
def demoX : List (List ℚ):= [[1], [2], [3], [4]]

def demoY : List ℚ := [0, 0, 1, 1]

/-- A fitted tree whose one split separates nothing: both children predict
`5`, and the root posterior predicts `5` as well (merge-coherent). -/
def demoCoherentTree : Tree (List ℚ) :=
  Tree.node 0 2 (some 1) [5, 5] 0 "x0" (3 / 2) 0 1
    (Tree.leaf 1 1 none [5]) (Tree.leaf 1 1 none [5])

/-- The routing function partitions the rows: each row index below
`X.length` lands in exactly one of the two index lists, `<` left, `≥` right. -/
theorem childIndices_spec (X : List (List ℚ)) (dim : Nat) (v : ℚ) :
    (computeChild1AndChild2Indices X dim v).1.Nodup ∧
    (computeChild1AndChild2Indices X dim v).2.Nodup ∧
    (computeChild1AndChild2Indices X dim v).1.length
      + (computeChild1AndChild2Indices X dim v).2.length = X.length ∧
    (∀ i : Nat,
      (i ∈ (computeChild1AndChild2Indices X dim v).1 ↔
        i < X.length ∧ Xval X i dim < v) ∧
      (i ∈ (computeChild1AndChild2Indices X dim v).2 ↔
        i < X.length ∧ v ≤ Xval X i dim) ∧
      ¬(i ∈ (computeChild1AndChild2Indices X dim v).1 ∧
        i ∈ (computeChild1AndChild2Indices X dim v).2)) := by
  unfold computeChild1AndChild2Indices
  refine ⟨(List.nodup_range _).filter _, (List.nodup_range _).filter _, ?_, ?_⟩
  · have h : ∀ i ∈ List.range X.length,
        (decide (Xval X i dim < v) = true ∧ ¬ decide (v ≤ Xval X i dim) = true) ∨
        (¬ decide (Xval X i dim < v) = true ∧ decide (v ≤ Xval X i dim) = true) := by
      intro i _
      by_cases hc : Xval X i dim < v
      · exact Or.inl ⟨by simpa using hc, by simpa using not_le.mpr hc⟩
      · exact Or.inr ⟨by simpa using hc, by simpa using not_lt.mp hc⟩
    have main : ∀ (l : List Nat),
        (∀ i ∈ l,
          (decide (Xval X i dim < v) = true ∧ ¬ decide (v ≤ Xval X i dim) = true) ∨
          (¬ decide (Xval X i dim < v) = true ∧ decide (v ≤ Xval X i dim) = true)) →
        (l.filter (fun i => decide (Xval X i dim < v))).length
          + (l.filter (fun i => decide (v ≤ Xval X i dim))).length = l.length := by
      intro l
      induction l with
      | nil => intro _; simp
      | cons a l ih =>
        intro hl
        have ha := hl a (by simp)
        have hrest : ∀ i ∈ l,
            (decide (Xval X i dim < v) = true ∧ ¬ decide (v ≤ Xval X i dim) = true) ∨
            (¬ decide (Xval X i dim < v) = true ∧ decide (v ≤ Xval X i dim) = true) :=
          fun i hi => hl i (List.mem_cons_of_mem a hi)
        have hih := ih hrest
        rcases ha with ⟨h1, h2⟩ | ⟨h1, h2⟩ <;>
          simp only [List.filter_cons, h1, h2, if_pos, if_neg, if_false, if_true,
            Bool.not_eq_true] at * <;>
          simp only [List.length_cons] <;> omega
    simpa [List.length_range] using main (List.range X.length) h
  · intro i
    refine ⟨?_, ?_, ?_⟩
    · simp [List.mem_filter, List.mem_range]
    · simp [List.mem_filter, List.mem_range]
    · rintro ⟨h1, h2⟩
      simp only [List.mem_filter, List.mem_range, decide_eq_true_eq] at h1 h2
      exact absurd h2.2 (not_le.mpr h1.2)

/-- C2 — **Partition completeness**: for every query row set routed to a split
node, `_compute_child1_and_child2_indices` gives each row to exactly one of the
two children — `child1` exactly the rows with `feature[split_dimension] <
split_value`, `child2` exactly those with `≥` — with no row lost or duplicated
(the two index lists are disjoint, duplicate-free, and jointly cover all rows). -/
theorem child_indices_partition (X : List (List ℚ)) (dim : Nat) (v : ℚ) :
    (computeChild1AndChild2Indices X dim v).1.Nodup ∧
    (computeChild1AndChild2Indices X dim v).2.Nodup ∧
    (computeChild1AndChild2Indices X dim v).1.length
      + (computeChild1AndChild2Indices X dim v).2.length = X.length ∧
    (∀ i : Nat,
      (i ∈ (computeChild1AndChild2Indices X dim v).1 ↔
        i < X.length ∧ Xval X i dim < v) ∧
      (i ∈ (computeChild1AndChild2Indices X dim v).2 ↔
        i < X.length ∧ v ≤ Xval X i dim) ∧
      ¬(i ∈ (computeChild1AndChild2Indices X dim v).1 ∧
        i ∈ (computeChild1AndChild2Indices X dim v).2)) :=
  childIndices_spec X dim v

/-! ## Prediction routing (`base.py:_predict`, `predict`) -/

/-- `X[indices]` (numpy fancy row indexing). -/
def gatherRows (X : List (List ℚ)) (idxs : List Nat) : List (List ℚ) :=
  idxs.map (fun i => X.getD i [])

/-- Helper for modelling `merged[indices] = values`: the value scattered at
row `i`, if any (first match; the index lists used are duplicate-free). -/
def lookupIdx {α : Type} (i : Nat) : List Nat → List α → Option α
  | [], _ => none
  | _ :: _, [] => none
  | j :: js, v :: vs => if j = i then some v else lookupIdx i js vs

/-- `merged[indices] = values` (numpy fancy assignment): row `i` takes the
scattered value when `i` occurs in `indices`, else keeps `base`'s value. -/
def scatterAt {α : Type} (dflt : α) (base : List α) (idxs : List Nat)
    (vals : List α) : List α :=
  (List.range base.length).map fun i => (lookupIdx i idxs vals).getD (base.getD i dflt)

/-- `_predict(X, predict_class=True)` (`base.py:147-178`): at a leaf broadcast
the point prediction over all routed rows; at a split node route the rows with
`_compute_child1_and_child2_indices`, predict each side, and scatter the two
results back into a zero-initialised array in original row order.
(The Python code returns `None` instead of an array when both index sets are
empty; that happens only for a 0-row `X`, where the caller turns it back into
the empty array this function returns.) -/
def predictT (F : ModelFamily P) : Tree P → List (List ℚ) → List ℚ
  | .leaf _ _ _ post, X => List.replicate X.length (F.predictLeaf post)
  | .node _ _ _ _ dim _ v _ _ c1 c2, X =>
    let pr := computeChild1AndChild2Indices X dim v
    let merged0 := List.replicate X.length (0 : ℚ)
    let merged1 := if pr.1.isEmpty then merged0
      else scatterAt 0 merged0 pr.1 (predictT F c1 (gatherRows X pr.1))
    if pr.2.isEmpty then merged1
    else scatterAt 0 merged1 pr.2 (predictT F c2 (gatherRows X pr.2))

/-- The route a single row takes: the prediction of the leaf reached by
descending with `feature[split_dimension] < split_value` to `child1`,
`≥` to `child2`. -/
def rowPredict (F : ModelFamily P) : Tree P → List ℚ → ℚ
  | .leaf _ _ _ post, _ => F.predictLeaf post
  | .node _ _ _ _ dim _ v _ _ c1 c2, row =>
    if row.getD dim 0 < v then rowPredict F c1 row else rowPredict F c2 row

/-! ## Queries, input normalization and errors -/

/-- The error kinds of spec §7.  `_ensure_is_fitted` raises the spec's
`NotFittedError` (source text `'Cannot predict on an untrained model'`);
shape/argument problems raise the spec's `ValidationError`. -/
inductive TreeError where
  | validation
  | notFitted
  deriving DecidableEq

/-- The `list`/scalar inputs accepted by `_normalize_data_and_feature_names`
(`base.py:204-235`): a scalar, a flat (1-D) list, or a list of rows.
(A Python literal `[]` is 1-D, i.e. `vec []`.) -/
inductive RawInput where
  | scalar (x : ℚ)
  | vec (xs : List ℚ)
  | mat (rows : List (List ℚ))

/-- `_normalize_data_and_feature_names(X)`: a scalar becomes a 1×1 matrix, a
1-D input is wrapped via `np.expand_dims(X, 0)` into a single row, a 2-D input
passes through; default feature names are `x0, x1, ...`. -/
def normalizeDataAndFeatureNames : RawInput → List (List ℚ) × List String
  | .scalar x => ([[x]], ["x0"])
  | .vec xs => ([xs], (List.range xs.length).map fun i => "x" ++ toString i)
  | .mat rows =>
      (rows, (List.range (rows.headD []).length).map fun i => "x" ++ toString i)

/-- `predict(X)` (`base.py:97-124`): normalize, `_ensure_is_fitted(X)`
(posterior-is-`None` check first, then the column-count check), then traverse.
An unfitted estimator is `none` (its `posterior` is `None`). -/
def predict (F : ModelFamily P) (root : Option (Tree P)) (inp : RawInput) :
    Except TreeError (List ℚ) :=
  let X := (normalizeDataAndFeatureNames inp).1
  match root with
  | none => .error .notFitted
  | some t =>
    if t.nDim = some (X.headD []).length then .ok (predictT F t X)
    else .error .validation

/-- `_update_feature_importance(feature_importance)`
(`base_perpendicular.py:206-214`): each split node adds
`best_log_p_data_split - log_p_data_no_split` at its split dimension, then the
children accumulate. -/
def updateFeatureImportance (F : ModelFamily P) : Tree P → List ℚ → List ℚ
  | .leaf _ _ _ _, acc => acc
  | .node _ _ _ _ dim _ _ lnp blp c1 c2, acc =>
    let acc1 := acc.set dim (acc.getD dim 0 + (blp - lnp))
    updateFeatureImportance F c2 (updateFeatureImportance F c1 acc1)

/-- The accumulation-and-normalization core of `feature_importance()`
(`base.py:126-145`): start from `np.zeros(n_dim)`, accumulate, divide by the
total. -/
def featureImportanceT (F : ModelFamily P) (t : Tree P) : List ℚ :=
  let raw := updateFeatureImportance F t (List.replicate (t.nDim.getD 0) 0)
  raw.map (fun q => q / raw.sum)

/-- `feature_importance()` with its leading `_ensure_is_fitted()` check. -/
def featureImportance (F : ModelFamily P) (root : Option (Tree P)) :
    Except TreeError (List ℚ) :=
  match root with
  | none => .error .notFitted
  | some t => .ok (featureImportanceT F t)

/-- `for i in indices: base[i] = f (base[i])` — the append loops of
`_update_prediction_paths` (the index lists used are duplicate-free). -/
def applyAt {α : Type} (dflt : α) (base : List α) (idxs : List Nat)
    (f : α → α) : List α :=
  (List.range base.length).map fun i =>
    if i ∈ idxs then f (base.getD i dflt) else base.getD i dflt

/-- `_update_prediction_paths(X, paths)` (`base_perpendicular.py:48-75`):
append this node's step to every routed row's path (`False` for `child1`,
`True` for `child2`), then recurse into each non-leaf child with the gathered
rows and paths; the Python in-place mutation of the shared row lists is
modelled by scattering the recursion's result back. -/
def updatePredictionPaths (F : ModelFamily P) :
    Tree P → List (List ℚ) → List (List PathStep) → List (List PathStep)
  | .leaf _ _ _ _, _, paths => paths
  | .node _ _ _ _ dim name v _ _ c1 c2, X, paths =>
    let pr := computeChild1AndChild2Indices X dim v
    let pathsA := applyAt [] paths pr.1 (fun p => p ++ [(dim, name, v, false)])
    let pathsB := applyAt [] pathsA pr.2 (fun p => p ++ [(dim, name, v, true)])
    let pathsC := if pr.1.isEmpty || c1.isLeafB then pathsB
      else scatterAt [] pathsB pr.1
        (updatePredictionPaths F c1 (gatherRows X pr.1)
          (pr.1.map fun i => pathsB.getD i []))
    if pr.2.isEmpty || c2.isLeafB then pathsC
    else scatterAt [] pathsC pr.2
      (updatePredictionPaths F c2 (gatherRows X pr.2)
        (pr.2.map fun i => pathsC.getD i []))

/-- `prediction_paths(X)` (`base_perpendicular.py:21-46`): normalize,
`_ensure_is_fitted(X)`, start from one empty path per row, accumulate. -/
def predictionPaths (F : ModelFamily P) (root : Option (Tree P))
    (inp : RawInput) : Except TreeError (List (List PathStep)) :=
  let X := (normalizeDataAndFeatureNames inp).1
  match root with
  | none => .error .notFitted
  | some t =>
    if t.nDim = some (X.headD []).length
    then .ok (updatePredictionPaths F t X (X.map fun _ => []))
    else .error .validation

/-! ## Pointwise characterisation of the routed traversals -/

theorem lookupIdx_map {α : Type} (i : Nat) (idxs : List Nat) (f : Nat → α) :
    lookupIdx i idxs (idxs.map f) = if i ∈ idxs then some (f i) else none := by
  induction idxs with
  | nil => simp [lookupIdx]
  | cons j js ih =>
    by_cases hj : j = i
    · subst hj; simp [lookupIdx]
    · simp [lookupIdx, hj, ih, Ne.symm hj]

theorem scatterAt_map {α : Type} (dflt : α) (base : List α) (idxs : List Nat)
    (f : Nat → α) :
    scatterAt dflt base idxs (idxs.map f)
      = (List.range base.length).map
          (fun i => if i ∈ idxs then f i else base.getD i dflt) := by
  unfold scatterAt
  refine List.map_congr_left fun i _ => ?_
  rw [lookupIdx_map]
  by_cases h : i ∈ idxs <;> simp [h]

theorem map_const_eq_replicate {α β : Type} (l : List α) (c : β) :
    l.map (fun _ => c) = List.replicate l.length c := by
  induction l with
  | nil => rfl
  | cons a l ih => simp [ih, List.replicate_succ]

theorem getD_range_map {α : Type} (n : Nat) (g : Nat → α) (i : Nat) (d : α)
    (h : i < n) : ((List.range n).map g).getD i d = g i := by
  rw [List.getD_eq_getElem _ _ (by simpa using h)]
  simp

theorem getD_replicate_self {α : Type} (n i : Nat) (c : α) :
    (List.replicate n c).getD i c = c := by
  induction n generalizing i with
  | zero => simp [List.getD]
  | succ n ih =>
    cases i with
    | zero => simp [List.replicate_succ]
    | succ i =>
      rw [List.replicate_succ, List.getD_cons_succ]
      exact ih i

/-- `_predict` computes, for each row independently, the prediction of the
leaf that row is routed to. -/
theorem predictT_eq_map (F : ModelFamily P) (t : Tree P) (X : List (List ℚ)) :
    predictT F t X = X.map (rowPredict F t) := by
  induction t generalizing X with
  | leaf l nd ndim post =>
    simp [predictT, rowPredict, map_const_eq_replicate]
  | node l nd ndim post dim name v lnp blp c1 c2 ih1 ih2 =>
    have hpart := childIndices_spec X dim v
    obtain ⟨-, -, -, hmem⟩ := hpart
    set idx1 := (computeChild1AndChild2Indices X dim v).1 with hidx1
    set idx2 := (computeChild1AndChild2Indices X dim v).2 with hidx2
    have hg1 : predictT F c1 (gatherRows X idx1)
        = idx1.map (fun i => rowPredict F c1 (X.getD i [])) := by
      rw [ih1]; simp [gatherRows, List.map_map]
    have hg2 : predictT F c2 (gatherRows X idx2)
        = idx2.map (fun i => rowPredict F c2 (X.getD i [])) := by
      rw [ih2]; simp [gatherRows, List.map_map]
    have hm0 : List.replicate X.length (0 : ℚ)
        = (List.range X.length).map (fun _ => (0 : ℚ)) := by
      rw [map_const_eq_replicate, List.length_range]
    have hmerged1 :
        (if idx1.isEmpty then List.replicate X.length (0 : ℚ)
         else scatterAt 0 (List.replicate X.length (0 : ℚ)) idx1
           (predictT F c1 (gatherRows X idx1)))
        = (List.range X.length).map
            (fun i => if i ∈ idx1 then rowPredict F c1 (X.getD i []) else 0) := by
      by_cases he : idx1.isEmpty
      · have hnil : idx1 = [] := List.isEmpty_iff.mp he
        rw [if_pos he, hm0]
        refine List.map_congr_left fun i _ => ?_
        rw [hnil]
        simp
      · rw [if_neg he, hg1, scatterAt_map]
        simp only [List.length_replicate]
        refine List.map_congr_left fun i _ => ?_
        by_cases h : i ∈ idx1
        · simp [h]
        · simp [h, getD_replicate_self]
    have hlen1 : ((List.range X.length).map
        (fun i => if i ∈ idx1 then rowPredict F c1 (X.getD i []) else 0)).length
        = X.length := by simp
    have hfinal :
        predictT F (.node l nd ndim post dim name v lnp blp c1 c2) X
        = (List.range X.length).map
            (fun i => if i ∈ idx2 then rowPredict F c2 (X.getD i [])
              else if i ∈ idx1 then rowPredict F c1 (X.getD i []) else 0) := by
      show (let pr := computeChild1AndChild2Indices X dim v
        let merged0 := List.replicate X.length (0 : ℚ)
        let merged1 := if pr.1.isEmpty then merged0
          else scatterAt 0 merged0 pr.1 (predictT F c1 (gatherRows X pr.1))
        if pr.2.isEmpty then merged1
        else scatterAt 0 merged1 pr.2 (predictT F c2 (gatherRows X pr.2))) = _
      simp only [← hidx1, ← hidx2]
      rw [hmerged1]
      by_cases he2 : idx2.isEmpty
      · have : idx2 = [] := List.isEmpty_iff.mp he2
        rw [if_pos he2]
        refine List.map_congr_left fun i _ => ?_
        simp [this]
      · rw [if_neg he2, hg2, scatterAt_map, hlen1]
        refine List.map_congr_left fun i hi => ?_
        by_cases h : i ∈ idx2
        · simp [h]
        · rw [if_neg h, if_neg h, getD_range_map _ _ _ _ (List.mem_range.mp hi)]
    rw [hfinal]
    have hlenX : ((List.range X.length).map
        (fun i => if i ∈ idx2 then rowPredict F c2 (X.getD i [])
          else if i ∈ idx1 then rowPredict F c1 (X.getD i []) else 0)).length
        = (X.map (rowPredict F (.node l nd ndim post dim name v lnp blp c1 c2))).length := by
      simp
    refine List.ext_getElem hlenX fun i h1 h2 => ?_
    have hiX : i < X.length := by simpa using h2
    rw [List.getElem_map, List.getElem_map, List.getElem_range]
    obtain ⟨hc1, hc2, -⟩ := hmem i
    have hXi : X.getD i [] = X[i] := List.getD_eq_getElem X [] hiX
    have hrp : rowPredict F (.node l nd ndim post dim name v lnp blp c1 c2) X[i]
        = if (X[i]).getD dim 0 < v then rowPredict F c1 X[i]
          else rowPredict F c2 X[i] := rfl
    by_cases hv : Xval X i dim < v
    · have h2' : i ∉ idx2 := fun hm => absurd ((hc2.mp hm).2) (not_le.mpr hv)
      have h1' : i ∈ idx1 := hc1.mpr ⟨hiX, hv⟩
      have hvv : (X[i]).getD dim 0 < v := by
        have h' := hv; unfold Xval at h'; rwa [hXi] at h'
      rw [if_neg h2', if_pos h1', hXi, hrp, if_pos hvv]
    · have h2' : i ∈ idx2 := hc2.mpr ⟨hiX, not_lt.mp hv⟩
      have hvv : ¬ (X[i]).getD dim 0 < v := by
        have h' := hv; unfold Xval at h'; rwa [hXi] at h'
      rw [if_pos h2', hXi, hrp, if_neg hvv]

/-- C5 — before `fit` has produced a posterior, `predict`,
`feature_importance` and `prediction_paths` all fail with the spec's
`NotFittedError` (`_ensure_is_fitted`, `base.py:252-257`), synchronously and
before any traversal: the error is returned without the (absent) tree being
examined. -/
theorem unfitted_queries_fail (F : ModelFamily P) (inp : RawInput) :
    predict F (none : Option (Tree P)) inp = .error .notFitted ∧
    featureImportance F (none : Option (Tree P)) = .error .notFitted ∧
    predictionPaths F (none : Option (Tree P)) inp = .error .notFitted := by
  exact ⟨rfl, rfl, rfl⟩

/-- C9 — a fitted tree that is a single unsplit leaf broadcasts its scalar
point prediction into an array with exactly one entry per query row
(`base.py:115-124, 147-152`), for any row count. -/
theorem leaf_predict_broadcast (F : ModelFamily P) (l nd : Nat)
    (ndim : Option Nat) (post : P) (r : List ℚ) (rs : List (List ℚ))
    (h : ndim = some r.length) :
    predict F (some (Tree.leaf l nd ndim post)) (.mat (r :: rs))
      = .ok (List.replicate (r :: rs).length (F.predictLeaf post)) := by
  subst h
  simp [predict, normalizeDataAndFeatureNames, Tree.nDim, predictT]

/-- Witness for `leaf_predict_broadcast`: a 3-row query against a one-leaf
tree fitted on different data yields 3 copies of the leaf prediction. -/
theorem leaf_predict_broadcast_witness :
    predict trivialFamily (some (Tree.leaf 0 4 (some 1) ([7] : List ℚ)))
        (.mat [[1], [2], [3]])
      = .ok [7, 7, 7] := by
  have := leaf_predict_broadcast trivialFamily 0 4 (some 1) ([7] : List ℚ)
    [1] [[2], [3]] rfl
  simpa [trivialFamily] using this

/-- C10 — a 1-D input of length `d` is normalized to a single sample with `d`
features (`np.expand_dims(X, 0)`, `base.py:224-225`), so `predict` on it
returns exactly one prediction: the routed prediction of that one row. -/
theorem one_dim_input_single_sample (F : ModelFamily P) (t : Tree P)
    (xs : List ℚ) (h : t.nDim = some xs.length) :
    (normalizeDataAndFeatureNames (.vec xs)).1 = [xs] ∧
    predict F (some t) (.vec xs) = .ok [rowPredict F t xs] := by
  refine ⟨rfl, ?_⟩
  simp only [predict, normalizeDataAndFeatureNames, List.headD_cons, h,
    if_pos rfl]
  rw [predictT_eq_map]
  rfl

/-- Witness for `one_dim_input_single_sample`: the flat list `[3, 4]` against
a 2-feature one-leaf tree is one sample, giving one prediction. -/
theorem one_dim_input_single_sample_witness :
    predict trivialFamily (some (Tree.leaf 0 4 (some 2) ([5] : List ℚ)))
        (.vec [3, 4]) = .ok [5] := by
  have := (one_dim_input_single_sample trivialFamily
    (Tree.leaf 0 4 (some 2) ([5] : List ℚ)) [3, 4] rfl).2
  simpa [trivialFamily, rowPredict] using this

/-! ## The split-search invariant and split acceptance -/

theorem splitSearchStep_inv (F : ModelFamily P) (prior : P) (X : List (List ℚ))
    (y : List ℚ) (sortIdx : List (List Nat)) (nDim : Nat) (logNo : ℚ)
    (st : SearchState) (dim : Nat) (hdim : dim < nDim)
    (h : SearchInv X sortIdx nDim logNo st) :
    SearchInv X sortIdx nDim logNo (splitSearchStep F prior X y sortIdx nDim st dim) := by
  unfold splitSearchStep
  dsimp only
  split
  · exact h
  next hne =>
    split
    next hlt =>
      set splitIdxs := splitPositions
        ((sortIdx.getD dim []).map fun i => Xval X i dim) with hsi
      set lps := F.logPDataSplit prior
        ((sortIdx.getD dim []).map fun i => y.getD i 0) splitIdxs nDim with hlps
      refine ⟨le_of_lt (lt_of_le_of_lt h.1 hlt), fun hpos => ?_⟩
      refine ⟨lt_of_le_of_lt h.1 hlt, by simpa using hdim, ?_⟩
      simp only [Int.toNat_ofNat]
      by_cases hin : argmaxIdx lps < splitIdxs.length
      · rw [List.getD_eq_getElem _ _ hin]
        exact List.getElem_mem hin
      · exfalso
        have : splitIdxs.getD (argmaxIdx lps) 0 = 0 :=
          List.getD_eq_default _ _ (le_of_not_lt hin)
        rw [this] at hpos
        simp at hpos
    · exact h

theorem splitSearch_inv (F : ModelFamily P) (prior : P) (X : List (List ℚ))
    (y : List ℚ) (sortIdx : List (List Nat)) (nDim : Nat) (logNo : ℚ) :
    SearchInv X sortIdx nDim logNo (splitSearch F prior X y sortIdx nDim logNo) := by
  have fold : ∀ (l : List Nat) (st : SearchState), (∀ d ∈ l, d < nDim) →
      SearchInv X sortIdx nDim logNo st →
      SearchInv X sortIdx nDim logNo
        (l.foldl (splitSearchStep F prior X y sortIdx nDim) st) := by
    intro l
    induction l with
    | nil => intro st _ h; exact h
    | cons d l ih =>
      intro st hmem h
      exact ih _ (fun e he => hmem e (List.mem_cons_of_mem d he))
        (splitSearchStep_inv F prior X y sortIdx nDim logNo st d
          (hmem d (List.mem_cons_self d l)) h)
  have hneg : ¬ (0 : Int) < -1 := by decide
  have hinit : SearchInv X sortIdx nDim logNo ⟨logNo, -1, -1⟩ :=
    ⟨le_refl _, fun hpos => absurd hpos hneg⟩
  exact fold (List.range nDim) ⟨logNo, -1, -1⟩
    (fun d hd => List.mem_range.mp hd) hinit

theorem fitAux_nDim (F : ModelFamily P) (pp : ℚ) (X : List (List ℚ))
    (y : List ℚ) (δ : ℚ) (nm : List String) (prior : P) (lvl : Nat)
    (si : List (List Nat)) (f : Nat) :
    (fitAux F pp X y δ nm prior lvl si f).nDim = some (X.headD []).length := by
  cases f with
  | zero => rfl
  | succ f => rw [fitAux]; split <;> rfl

theorem fitAux_nData (F : ModelFamily P) (pp : ℚ) (X : List (List ℚ))
    (y : List ℚ) (δ : ℚ) (nm : List String) (prior : P) (lvl : Nat)
    (si : List (List Nat)) (f : Nat) :
    (fitAux F pp X y δ nm prior lvl si f).nData = (si.headD []).length := by
  cases f with
  | zero => rfl
  | succ f => rw [fitAux]; split <;> rfl

theorem fitAux_gainPositive (F : ModelFamily P) (pp : ℚ) (X : List (List ℚ))
    (y : List ℚ) (δ : ℚ) (nm : List String) :
    ∀ (f : Nat) (prior : P) (lvl : Nat) (si : List (List Nat)),
      (fitAux F pp X y δ nm prior lvl si f).GainPositive := by
  intro f
  induction f with
  | zero => intro prior lvl si; exact trivial
  | succ f ih =>
    intro prior lvl si
    rw [fitAux]
    split
    next hpos =>
      have hinv := (splitSearch_inv F prior X y si (X.headD []).length
        (F.logPDataNoSplit prior (ySorted0 y si))).2 hpos
      refine ⟨hinv.1, ?_, ?_⟩
      · split
        · exact ih _ _ _
        · exact trivial
      · split
        · exact ih _ _ _
        · exact trivial
    next => exact trivial

/-- C1 — **Monotonic acceptance**: at every node reached during fitting
(i.e. for every recursive `_fit` call, whatever its prior, level and active
sorted-index cache), the constructed tree records a split only with
`log_p_data_no_split < best_log_p_data_split` at that node and at every node
below it; and if the best marginal log-likelihood over all legal candidate
splits of all dimensions does not strictly beat the no-split marginal
log-likelihood, the node stays exactly the unsplit leaf (no split fields, no
children). -/
theorem split_only_on_strict_gain (F : ModelFamily P) (pp : ℚ)
    (X : List (List ℚ)) (y : List ℚ) (δ : ℚ) (nm : List String) (prior : P)
    (lvl : Nat) (si : List (List Nat)) (f : Nat) :
    (fitAux F pp X y δ nm prior lvl si (f + 1)).GainPositive ∧
    ((splitSearch F prior X y si (X.headD []).length
        (F.logPDataNoSplit prior (ySorted0 y si))).best
        ≤ F.logPDataNoSplit prior (ySorted0 y si) →
      fitAux F pp X y δ nm prior lvl si (f + 1) = unsplitLeaf F prior lvl X y si) := by
  refine ⟨fitAux_gainPositive F pp X y δ nm (f + 1) prior lvl si, fun hle => ?_⟩
  rw [fitAux]
  split
  next hpos =>
    exact absurd ((splitSearch_inv F prior X y si (X.headD []).length
      (F.logPDataNoSplit prior (ySorted0 y si))).2 hpos).1 (not_lt.mpr hle)
  next => rfl

/-- Witness for `split_only_on_strict_gain`: spec §8 scenario 2 — on the
single-class target `[0,0,0,0]` no candidate split beats the no-split
likelihood and the root stays an unsplit leaf. -/
theorem split_only_on_strict_gain_witness :
    (fitAux trivialFamily 1 demoX [0, 0, 0, 0] 0 ["x0"] ([] : List ℚ)
      0 [[0, 1, 2, 3]] 4).GainPositive ∧
    fitAux trivialFamily 1 demoX [0, 0, 0, 0] 0 ["x0"] ([] : List ℚ)
        0 [[0, 1, 2, 3]] 4
      = unsplitLeaf trivialFamily ([] : List ℚ) 0 demoX [0, 0, 0, 0]
          [[0, 1, 2, 3]] := by
  have h := split_only_on_strict_gain trivialFamily 1 demoX [0, 0, 0, 0] 0
    ["x0"] ([] : List ℚ) 0 [[0, 1, 2, 3]] 3
  exact ⟨h.1, h.2 (by with_unfolding_all decide)⟩

/-! ## `n_data` bookkeeping -/

theorem headD_map_filter (sortIdx : List (List Nat)) (p : Nat → Bool) :
    ((sortIdx.map fun si => si.filter p).headD []) = (sortIdx.headD []).filter p := by
  cases sortIdx <;> rfl

theorem filter_length_partition {α : Type} (p q : α → Bool) :
    ∀ (l : List α),
      (∀ x ∈ l, (p x = true ∧ q x = false) ∨ (p x = false ∧ q x = true)) →
      (l.filter p).length + (l.filter q).length = l.length := by
  intro l
  induction l with
  | nil => intro _; simp
  | cons a l ih =>
    intro h
    have ha := h a (List.mem_cons_self a l)
    have hrest : ∀ x ∈ l, (p x = true ∧ q x = false) ∨ (p x = false ∧ q x = true) :=
      fun x hx => h x (List.mem_cons_of_mem a hx)
    have hih := ih hrest
    rcases ha with ⟨h1, h2⟩ | ⟨h1, h2⟩ <;>
      simp [List.filter_cons, h1, h2] <;> omega

theorem rowsAligned_filter (sortIdx : List (List Nat)) (p : Nat → Bool)
    (h : RowsAligned sortIdx) : RowsAligned (sortIdx.map fun si => si.filter p) := by
  constructor
  · intro l hl
    rw [headD_map_filter]
    obtain ⟨si, hsi, rfl⟩ := List.mem_map.mp hl
    exact (h.1 si hsi).filter p
  · rw [headD_map_filter]
    exact h.2.filter p

theorem splitPositions_mem (vals : List ℚ) (k : Nat) :
    k ∈ splitPositions vals ↔
      1 ≤ k ∧ k < vals.length ∧ vals.getD k 0 ≠ vals.getD (k - 1) 0 := by
  unfold splitPositions
  simp only [List.mem_map, List.mem_filter, List.mem_range, decide_eq_true_eq]
  constructor
  · rintro ⟨j, ⟨hj, hne⟩, rfl⟩
    refine ⟨by omega, by omega, ?_⟩
    simpa using hne
  · rintro ⟨h1, h2, hne⟩
    refine ⟨k - 1, ⟨by omega, ?_⟩, by omega⟩
    have hk : k - 1 + 1 = k := by omega
    rw [hk]
    exact hne

/-- The split taken at a node: if the search records a positive index, the
row of the chosen dimension is nonempty, belongs to the cache, and the index
cuts it properly. -/
theorem fitAux_ndataConsistent (F : ModelFamily P) (pp : ℚ) (X : List (List ℚ))
    (y : List ℚ) (δ : ℚ) (nm : List String) :
    ∀ (f : Nat) (prior : P) (lvl : Nat) (si : List (List Nat)),
      RowsAligned si → (fitAux F pp X y δ nm prior lvl si f).NDataConsistent := by
  intro f
  induction f with
  | zero => intro prior lvl si _; exact trivial
  | succ f ih =>
    intro prior lvl si hra
    rw [fitAux]
    split
    next hpos =>
      have hinv := (splitSearch_inv F prior X y si (X.headD []).length
        (F.logPDataNoSplit prior (ySorted0 y si))).2 hpos
      set st := splitSearch F prior X y si (X.headD []).length
        (F.logPDataNoSplit prior (ySorted0 y si)) with hst
      set dim := st.bestDim.toNat with hdim
      set row := si.getD dim [] with hrow
      set k := st.bestIdx.toNat with hk
      have hkpos : 1 ≤ k ∧ k < row.length := by
        have := (splitPositions_mem _ _).mp hinv.2.2
        constructor
        · exact this.1
        · have := this.2.1
          simpa using this
      have hrowmem : row ∈ si := by
        have hlen : dim < si.length := by
          by_contra hout
          have : row = [] := by
            rw [hrow]
            exact List.getD_eq_default _ _ (le_of_not_lt hout)
          rw [this] at hkpos
          simp at hkpos
        rw [hrow, List.getD_eq_getElem _ _ hlen]
        exact List.getElem_mem hlen
      have hperm : row.Perm (si.headD []) := hra.1 row hrowmem
      have hnodup : row.Nodup := hperm.nodup_iff.mpr hra.2
      have hdisj : List.Disjoint (row.take k) (row.drop k) := by
        have hnd : (row.take k ++ row.drop k).Nodup := by
          rw [List.take_append_drop]; exact hnodup
        exact (List.nodup_append.mp hnd).2.2
      have hxor : ∀ x ∈ si.headD [],
          ((fun i => decide (i ∈ row.take k)) x = true ∧
            (fun i => decide (i ∈ row.drop k)) x = false) ∨
          ((fun i => decide (i ∈ row.take k)) x = false ∧
            (fun i => decide (i ∈ row.drop k)) x = true) := by
        intro x hx
        have hxrow : x ∈ row := hperm.mem_iff.mpr hx
        rw [← List.take_append_drop k row] at hxrow
        rcases List.mem_append.mp hxrow with h1 | h2
        · exact Or.inl ⟨by simpa using h1, by simpa using fun h2 => hdisj h1 h2⟩
        · exact Or.inr ⟨by simpa using fun h1 => hdisj h1 h2, by simpa using h2⟩
      have hcount :
          ((si.headD []).filter (fun i => decide (i ∈ row.take k))).length +
          ((si.headD []).filter (fun i => decide (i ∈ row.drop k))).length
            = (si.headD []).length :=
        filter_length_partition _ _ _ hxor
      refine ⟨?_, ?_, ?_⟩
      · simp only [apply_ite Tree.nData]
        simp only [fitAux_nData]
        simp only [Tree.nData]
        simp only [ite_self, headD_map_filter]
        simp only [← hrow]
        omega
      · split
        · exact ih _ _ _ (rowsAligned_filter si _ hra)
        · exact trivial
      · split
        · exact ih _ _ _ (rowsAligned_filter si _ hra)
        · exact trivial
    next => exact trivial

theorem argsortDim_perm (X : List (List ℚ)) (dim : Nat) :
    (argsortDim X dim).Perm (List.range X.length) :=
  List.perm_insertionSort _ _

theorem computeSortIndices_rows_perm (X : List (List ℚ)) :
    ∀ l ∈ computeSortIndices X, l.Perm (List.range X.length) := by
  intro l hl
  obtain ⟨dim, _, rfl⟩ := List.mem_map.mp hl
  exact argsortDim_perm X dim

theorem rowsAligned_computeSortIndices (X : List (List ℚ)) :
    RowsAligned (computeSortIndices X) := by
  constructor
  · intro l hl
    have hne : computeSortIndices X ≠ [] := by
      intro h; rw [h] at hl; exact absurd hl (List.not_mem_nil l)
    have h2 : (computeSortIndices X).headD [] ∈ computeSortIndices X := by
      cases hcs : computeSortIndices X with
      | nil => exact absurd hcs hne
      | cons a t => simp
    exact (computeSortIndices_rows_perm X l hl).trans
      (computeSortIndices_rows_perm X _ h2).symm
  · cases hcs : computeSortIndices X with
    | nil => simp
    | cons a t =>
      have ha : a ∈ computeSortIndices X := by rw [hcs]; simp
      have := computeSortIndices_rows_perm X a ha
      simpa using this.nodup_iff.mpr (List.nodup_range _)

theorem pruneAux_nData (F : ModelFamily P) :
    ∀ (f : Nat) (t : Tree P), (pruneAux F f t).nData = t.nData := by
  intro f
  induction f with
  | zero => intro t; rfl
  | succ f ih =>
    intro t
    cases t with
    | leaf l nd ndim post => rfl
    | node l nd ndim post dim name v lnp blp c1 c2 =>
      rw [pruneAux]
      repeat' split
      all_goals first
        | rfl
        | (rw [ih]; try rfl)

theorem pruneAux_ndataConsistent (F : ModelFamily P) :
    ∀ (f : Nat) (t : Tree P), t.NDataConsistent →
      (pruneAux F f t).NDataConsistent := by
  intro f
  induction f with
  | zero => intro t h; exact h
  | succ f ih =>
    intro t h
    cases t with
    | leaf l nd ndim post => exact trivial
    | node l nd ndim post dim name v lnp blp c1 c2 =>
      obtain ⟨hsum, h1, h2⟩ := h
      rw [pruneAux]
      repeat' split
      all_goals first
        | exact trivial
        | exact ih _ trivial
        | exact ⟨hsum, h1, h2⟩
        | exact ih _ ⟨hsum, h1, h2⟩
        | exact ⟨by rw [pruneAux_nData, pruneAux_nData]; exact hsum, ih _ h1, ih _ h2⟩
        | exact ih _ ⟨by rw [pruneAux_nData, pruneAux_nData]; exact hsum, ih _ h1, ih _ h2⟩

/-- C6 — for every fitted tree, every node that took a split has
`n_data = child1.n_data + child2.n_data` (`base_perpendicular.py:136-189`),
and the invariant survives pruning, the only tree-rewriting operation
(queries do not mutate the tree). -/
theorem ndata_sum_of_children (F : ModelFamily P) (pp : ℚ) (X : List (List ℚ))
    (y : List ℚ) (δ : ℚ) (nm : List String) (prior : P) :
    (fitTree F pp X y δ nm prior).NDataConsistent ∧
    (pruneTree F (fitTree F pp X y δ nm prior)).NDataConsistent := by
  have h1 := fitAux_ndataConsistent F pp X y δ nm X.length prior 0
    (computeSortIndices X) (rowsAligned_computeSortIndices X)
  exact ⟨h1, pruneAux_ndataConsistent F _ _ h1⟩

/-! ## Feature importance -/

theorem fitAux_splitDimLt (F : ModelFamily P) (pp : ℚ) (X : List (List ℚ))
    (y : List ℚ) (δ : ℚ) (nm : List String) :
    ∀ (f : Nat) (prior : P) (lvl : Nat) (si : List (List Nat)),
      (fitAux F pp X y δ nm prior lvl si f).SplitDimLt (X.headD []).length := by
  intro f
  induction f with
  | zero => intro prior lvl si; exact trivial
  | succ f ih =>
    intro prior lvl si
    rw [fitAux]
    split
    next hpos =>
      have hinv := (splitSearch_inv F prior X y si (X.headD []).length
        (F.logPDataNoSplit prior (ySorted0 y si))).2 hpos
      refine ⟨hinv.2.1, ?_, ?_⟩
      · split
        · exact ih _ _ _
        · exact trivial
      · split
        · exact ih _ _ _
        · exact trivial
    next => exact trivial

theorem ufi_length (F : ModelFamily P) :
    ∀ (t : Tree P) (acc : List ℚ),
      (updateFeatureImportance F t acc).length = acc.length := by
  intro t
  induction t with
  | leaf l nd ndim post => intro acc; rfl
  | node l nd ndim post dim name v lnp blp c1 c2 ih1 ih2 =>
    intro acc
    rw [updateFeatureImportance, ih2, ih1, List.length_set]

theorem ufi_nonneg (F : ModelFamily P) :
    ∀ (t : Tree P) (acc : List ℚ), t.GainPositive → (∀ q ∈ acc, 0 ≤ q) →
      ∀ q ∈ updateFeatureImportance F t acc, 0 ≤ q := by
  intro t
  induction t with
  | leaf l nd ndim post => intro acc _ hacc; exact hacc
  | node l nd ndim post dim name v lnp blp c1 c2 ih1 ih2 =>
    intro acc hg hacc
    obtain ⟨hgain, hg1, hg2⟩ := hg
    rw [updateFeatureImportance]
    apply ih2 _ hg2
    apply ih1 _ hg1
    intro q hq
    rcases List.mem_or_eq_of_mem_set hq with hmem | rfl
    · exact hacc q hmem
    · have hd : 0 ≤ acc.getD dim 0 := by
        by_cases hlt : dim < acc.length
        · exact hacc _ (by rw [List.getD_eq_getElem _ _ hlt]; exact List.getElem_mem hlt)
        · rw [List.getD_eq_default _ _ (le_of_not_lt hlt)]
      have : (0 : ℚ) < blp - lnp := by linarith
      linarith

theorem sum_set_getD_add (g : ℚ) :
    ∀ (l : List ℚ) (i : Nat),
      (l.set i (l.getD i 0 + g)).sum = if i < l.length then l.sum + g else l.sum := by
  intro l
  induction l with
  | nil => intro i; simp
  | cons a t ih =>
    intro i
    cases i with
    | zero => simp [List.getD_cons_zero]; ring
    | succ i =>
      simp only [List.set_cons_succ, List.getD_cons_succ, List.sum_cons,
        List.length_cons, ih, Nat.succ_lt_succ_iff]
      by_cases h : i < t.length
      · simp [h]
        ring
      · simp [h]

theorem ufi_sum_le (F : ModelFamily P) :
    ∀ (t : Tree P) (acc : List ℚ), t.GainPositive →
      acc.sum ≤ (updateFeatureImportance F t acc).sum := by
  intro t
  induction t with
  | leaf l nd ndim post => intro acc _; exact le_refl _
  | node l nd ndim post dim name v lnp blp c1 c2 ih1 ih2 =>
    intro acc hg
    obtain ⟨hgain, hg1, hg2⟩ := hg
    rw [updateFeatureImportance]
    refine le_trans ?_ (le_trans (ih1 _ hg1) (ih2 _ hg2))
    rw [sum_set_getD_add]
    split
    · linarith
    · exact le_refl _

theorem ufi_sum_lt (F : ModelFamily P) (t : Tree P) (acc : List ℚ)
    (hg : t.GainPositive) (hd : t.SplitDimLt acc.length)
    (hn : t.isLeafB = false) :
    acc.sum < (updateFeatureImportance F t acc).sum := by
  cases t with
  | leaf l nd ndim post => exact absurd hn (by simp [Tree.isLeafB])
  | node l nd ndim post dim name v lnp blp c1 c2 =>
    obtain ⟨hgain, hg1, hg2⟩ := hg
    rw [updateFeatureImportance]
    refine lt_of_lt_of_le ?_ (le_trans (ufi_sum_le F c1 _ hg1) (ufi_sum_le F c2 _ hg2))
    rw [sum_set_getD_add]
    rw [if_pos hd.1]
    linarith

theorem sum_map_div (l : List ℚ) (s : ℚ) :
    (l.map fun q => q / s).sum = l.sum / s := by
  induction l with
  | nil => simp
  | cons a t ih => simp [ih, add_div]

/-- C4 — for a fitted tree that took at least one split,
`feature_importance()` returns a vector of length `n_dim` whose entries are
non-negative and sum to exactly `1` (`base.py:126-145`,
`base_perpendicular.py:206-214`; the single-leaf tree normalizes `0/0` and is
the spec's documented undefined edge case). -/
theorem feature_importance_normalized (F : ModelFamily P) (pp : ℚ)
    (X : List (List ℚ)) (y : List ℚ) (δ : ℚ) (nm : List String) (prior : P)
    (h : (fitTree F pp X y δ nm prior).isLeafB = false) :
    (featureImportanceT F (fitTree F pp X y δ nm prior)).length
      = (X.headD []).length ∧
    (∀ q ∈ featureImportanceT F (fitTree F pp X y δ nm prior), 0 ≤ q) ∧
    (featureImportanceT F (fitTree F pp X y δ nm prior)).sum = 1 := by
  have hgain : (fitTree F pp X y δ nm prior).GainPositive :=
    fitAux_gainPositive F pp X y δ nm X.length prior 0 (computeSortIndices X)
  have hdims : (fitTree F pp X y δ nm prior).SplitDimLt (X.headD []).length :=
    fitAux_splitDimLt F pp X y δ nm X.length prior 0 (computeSortIndices X)
  have hndim : (fitTree F pp X y δ nm prior).nDim = some (X.headD []).length :=
    fitAux_nDim F pp X y δ nm prior 0 (computeSortIndices X) X.length
  set t := fitTree F pp X y δ nm prior with ht
  set w := (X.headD []).length with hw
  have hzeros : ∀ q ∈ List.replicate w (0 : ℚ), 0 ≤ q := by
    intro q hq
    rw [List.eq_of_mem_replicate hq]
  have hraw := ufi_nonneg F t (List.replicate w 0) hgain hzeros
  have hlen : (updateFeatureImportance F t (List.replicate w 0)).length = w := by
    rw [ufi_length, List.length_replicate]
  have hsum : (0 : ℚ) < (updateFeatureImportance F t (List.replicate w 0)).sum := by
    have := ufi_sum_lt F t (List.replicate w 0) hgain
      (by rw [List.length_replicate]; exact hdims) h
    simpa using this
  have hfi : featureImportanceT F t
      = (updateFeatureImportance F t (List.replicate w 0)).map
          (fun q => q / (updateFeatureImportance F t (List.replicate w 0)).sum) := by
    rw [featureImportanceT, hndim]
    rfl
  refine ⟨?_, ?_, ?_⟩
  · rw [hfi, List.length_map, hlen]
  · intro q hq
    rw [hfi] at hq
    obtain ⟨a, ha, rfl⟩ := List.mem_map.mp hq
    exact div_nonneg (hraw a ha) (le_of_lt hsum)
  · rw [hfi, sum_map_div, div_self (ne_of_gt hsum)]

/-- Witness for `feature_importance_normalized`: the demo fit takes one split
on the single feature, so the importance vector is `[1]`. -/
theorem feature_importance_normalized_witness :
    (featureImportanceT trivialFamily
        (fitTree trivialFamily 1 demoX demoY 0 ["x0"] ([] : List ℚ))).length = 1 ∧
    (∀ q ∈ featureImportanceT trivialFamily
        (fitTree trivialFamily 1 demoX demoY 0 ["x0"] ([] : List ℚ)), 0 ≤ q) ∧
    (featureImportanceT trivialFamily
        (fitTree trivialFamily 1 demoX demoY 0 ["x0"] ([] : List ℚ))).sum = 1 := by
  exact feature_importance_normalized trivialFamily 1 demoX demoY 0 ["x0"]
    ([] : List ℚ) (by with_unfolding_all decide)

/-! ## Pruning lemmas -/

theorem pruneAux_leaf (F : ModelFamily P) (f : Nat) (l nd : Nat)
    (ndim : Option Nat) (post : P) :
    pruneAux F f (Tree.leaf l nd ndim post) = Tree.leaf l nd ndim post := by
  cases f <;> rfl

theorem pruneAux_nDim (F : ModelFamily P) :
    ∀ (f : Nat) (t : Tree P), (pruneAux F f t).nDim = t.nDim := by
  intro f
  induction f with
  | zero => intro t; rfl
  | succ f ih =>
    intro t
    cases t with
    | leaf l nd ndim post => rfl
    | node l nd ndim post dim name v lnp blp c1 c2 =>
      rw [pruneAux]
      repeat' split
      all_goals first
        | rfl
        | (rw [ih]; try rfl)

theorem pruneAux_posterior (F : ModelFamily P) :
    ∀ (f : Nat) (t : Tree P), (pruneAux F f t).posterior = t.posterior := by
  intro f
  induction f with
  | zero => intro t; rfl
  | succ f ih =>
    intro t
    cases t with
    | leaf l nd ndim post => rfl
    | node l nd ndim post dim name v lnp blp c1 c2 =>
      rw [pruneAux]
      repeat' split
      all_goals first
        | rfl
        | (rw [ih]; try rfl)

theorem one_le_nLeaves (t : Tree P) : 1 ≤ t.nLeaves := by
  induction t with
  | leaf l nd ndim post => exact le_refl 1
  | node l nd ndim post dim name v lnp blp c1 c2 ih1 ih2 =>
    show 1 ≤ c1.nLeaves + c2.nLeaves
    omega

theorem nLeaves_of_isLeafB (t : Tree P) (h : t.isLeafB = true) :
    t.nLeaves = 1 := by
  cases t with
  | leaf l nd ndim post => rfl
  | node l nd ndim post dim name v lnp blp c1 c2 => simp [Tree.isLeafB] at h

theorem two_le_nLeaves_of_not_leaf (t : Tree P) (h : t.isLeafB = false) :
    2 ≤ t.nLeaves := by
  cases t with
  | leaf l nd ndim post => simp [Tree.isLeafB] at h
  | node l nd ndim post dim name v lnp blp c1 c2 =>
    show 2 ≤ c1.nLeaves + c2.nLeaves
    have := one_le_nLeaves c1
    have := one_le_nLeaves c2
    omega

theorem rowPredict_of_isLeafB (F : ModelFamily P) (t : Tree P)
    (h : t.isLeafB = true) (row : List ℚ) :
    rowPredict F t row = F.predictLeaf t.posterior := by
  cases t with
  | leaf l nd ndim post => rfl
  | node l nd ndim post dim name v lnp blp c1 c2 => simp [Tree.isLeafB] at h

theorem irreducible_of_isLeafB (F : ModelFamily P) (t : Tree P)
    (h : t.isLeafB = true) : Irreducible F t := by
  cases t with
  | leaf l nd ndim post => exact trivial
  | node l nd ndim post dim name v lnp blp c1 c2 => simp [Tree.isLeafB] at h

theorem pruneAux_nLeaves_le (F : ModelFamily P) :
    ∀ (f : Nat) (t : Tree P), (pruneAux F f t).nLeaves ≤ t.nLeaves := by
  intro f
  induction f with
  | zero => intro t; exact le_refl _
  | succ f ih =>
    intro t
    cases t with
    | leaf l nd ndim post => exact le_refl _
    | node l nd ndim post dim name v lnp blp c1 c2 =>
      have hle1 := one_le_nLeaves c1
      have hle2 := one_le_nLeaves c2
      have hp1 := ih c1
      have hp2 := ih c2
      rw [pruneAux]
      repeat' split
      all_goals
        first
        | (refine le_trans (ih _) ?_
           simp only [Tree.nLeaves]
           omega)
        | (simp only [Tree.nLeaves]; omega)

theorem pruneAux_eq_or_lt (F : ModelFamily P) :
    ∀ (f : Nat) (t : Tree P),
      pruneAux F f t = t ∨ (pruneAux F f t).nLeaves < t.nLeaves := by
  intro f
  induction f with
  | zero => intro t; exact Or.inl rfl
  | succ f ih =>
    intro t
    cases t with
    | leaf l nd ndim post => exact Or.inl (pruneAux_leaf F _ l nd ndim post)
    | node l nd ndim post dim name v lnp blp c1 c2 =>
      have h1 := one_le_nLeaves c1
      have h2 := one_le_nLeaves c2
      rw [pruneAux]
      split
      next hA =>
        split
        next hB =>
          split
          next _ =>
            rw [pruneAux_leaf]
            right
            simp only [Tree.nLeaves]
            omega
          next _ =>
            right
            simp only [Tree.nLeaves]
            omega
        next hB =>
          split
          next hM => simp at hM
          next _ => exact Or.inl rfl
      next hA =>
        rcases ih c1 with he1 | hl1
        · rcases ih c2 with he2 | hl2
          · rw [he1, he2]
            split
            next hM => simp at hM
            next _ => exact Or.inl rfl
          · have hd1 := pruneAux_nLeaves_le F f c1
            split
            next _ =>
              right
              refine lt_of_le_of_lt (pruneAux_nLeaves_le F f _) ?_
              simp only [Tree.nLeaves]
              omega
            next _ =>
              right
              simp only [Tree.nLeaves]
              omega
        · have hd2 := pruneAux_nLeaves_le F f c2
          split
          next _ =>
            right
            refine lt_of_le_of_lt (pruneAux_nLeaves_le F f _) ?_
            simp only [Tree.nLeaves]
            omega
          next _ =>
            right
            simp only [Tree.nLeaves]
            omega

theorem pruneAux_of_irreducible (F : ModelFamily P) :
    ∀ (f : Nat) (t : Tree P), Irreducible F t → pruneAux F f t = t := by
  intro f
  induction f with
  | zero => intro t _; rfl
  | succ f ih =>
    intro t hirr
    cases t with
    | leaf l nd ndim post => rfl
    | node l nd ndim post dim name v lnp blp c1 c2 =>
      obtain ⟨hi1, hi2, hnot⟩ := hirr
      rw [pruneAux]
      split
      next hA =>
        rw [Bool.and_eq_true] at hA
        split
        next hB => exact absurd ⟨hA.1, hA.2, hB⟩ hnot
        next hB =>
          split
          next hM => simp at hM
          next _ => rfl
      next hA =>
        rw [ih c1 hi1, ih c2 hi2]
        split
        next hM => simp at hM
        next _ => rfl

theorem pruneAux_irreducible (F : ModelFamily P) :
    ∀ (f : Nat) (t : Tree P), t.nLeaves ≤ f → Irreducible F (pruneAux F f t) := by
  intro f
  induction f with
  | zero =>
    intro t h
    exact absurd (le_trans (one_le_nLeaves t) h) (by omega)
  | succ f ih =>
    intro t hle
    cases t with
    | leaf l nd ndim post => rw [pruneAux_leaf]; exact trivial
    | node l nd ndim post dim name v lnp blp c1 c2 =>
      have h1 := one_le_nLeaves c1
      have h2 := one_le_nLeaves c2
      have hnl : c1.nLeaves + c2.nLeaves ≤ f + 1 := hle
      rw [pruneAux]
      split
      next hA =>
        rw [Bool.and_eq_true] at hA
        split
        next hB =>
          split
          next _ => rw [pruneAux_leaf]; exact trivial
          next _ => exact trivial
        next hB =>
          split
          next hM => simp at hM
          next _ =>
            exact ⟨irreducible_of_isLeafB F c1 hA.1, irreducible_of_isLeafB F c2 hA.2,
              fun hcon => hB hcon.2.2⟩
      next hA =>
        have hd1 := pruneAux_nLeaves_le F f c1
        have hd2 := pruneAux_nLeaves_le F f c2
        split
        next hM =>
          apply ih
          rcases pruneAux_eq_or_lt F f c1 with he1 | hl1
          · rcases pruneAux_eq_or_lt F f c2 with he2 | hl2
            · rw [he1, he2] at hM; simp at hM
            · simp only [Tree.nLeaves]; omega
          · simp only [Tree.nLeaves]; omega
        next hM =>
          push_neg at hM
          have hleq : (pruneAux F f c1).nLeaves + (pruneAux F f c2).nLeaves
              = c1.nLeaves + c2.nLeaves := hM.2
          refine ⟨ih c1 (by omega), ih c2 (by omega), ?_⟩
          rintro ⟨hb1, hb2, -⟩
          have hp1 := nLeaves_of_isLeafB _ hb1
          have hp2 := nLeaves_of_isLeafB _ hb2
          have hl1 : c1.isLeafB = true := by
            by_contra hcon
            have := two_le_nLeaves_of_not_leaf c1
              (Bool.not_eq_true _ ▸ eq_false_of_ne_true hcon)
            omega
          have hl2 : c2.isLeafB = true := by
            by_contra hcon
            have := two_le_nLeaves_of_not_leaf c2
              (Bool.not_eq_true _ ▸ eq_false_of_ne_true hcon)
            omega
          exact hA (by rw [hl1, hl2]; rfl)

theorem coherentB_node_iff (F : ModelFamily P) (l nd : Nat) (ndim : Option Nat)
    (post : P) (dim : Nat) (name : String) (v lnp blp : ℚ) (c1 c2 : Tree P) :
    coherentB F (.node l nd ndim post dim name v lnp blp c1 c2) = true ↔
      ((F.predictLeaf c1.posterior = F.predictLeaf c2.posterior →
        F.predictLeaf post = F.predictLeaf c1.posterior) ∧
      coherentB F c1 = true ∧ coherentB F c2 = true) := by
  show ((!(decide _) || decide _) && coherentB F c1 && coherentB F c2) = true ↔ _
  simp only [Bool.and_eq_true, Bool.or_eq_true, Bool.not_eq_true',
    decide_eq_true_eq, decide_eq_false_iff_not]
  constructor
  · rintro ⟨⟨hor, h1⟩, h2⟩
    exact ⟨fun heq => (hor.resolve_left (fun hne => hne heq)), h1, h2⟩
  · rintro ⟨himp, h1, h2⟩
    refine ⟨⟨?_, h1⟩, h2⟩
    by_cases heq : F.predictLeaf c1.posterior = F.predictLeaf c2.posterior
    · exact Or.inr (himp heq)
    · exact Or.inl heq

theorem pruneAux_coherent (F : ModelFamily P) :
    ∀ (f : Nat) (t : Tree P), coherentB F t = true →
      coherentB F (pruneAux F f t) = true := by
  intro f
  induction f with
  | zero => intro t h; exact h
  | succ f ih =>
    intro t hc
    cases t with
    | leaf l nd ndim post => exact hc
    | node l nd ndim post dim name v lnp blp c1 c2 =>
      rw [coherentB_node_iff] at hc
      obtain ⟨htop, hc1, hc2⟩ := hc
      rw [pruneAux]
      split
      next hA =>
        split
        next hB =>
          split
          next _ => rw [pruneAux_leaf]; rfl
          next _ => rfl
        next hB =>
          split
          next hM => simp at hM
          next _ => rw [coherentB_node_iff]; exact ⟨htop, hc1, hc2⟩
      next hA =>
        have ht' : coherentB F (Tree.node l nd ndim post dim name v lnp blp
            (pruneAux F f c1) (pruneAux F f c2)) = true := by
          rw [coherentB_node_iff, pruneAux_posterior, pruneAux_posterior]
          exact ⟨htop, ih c1 hc1, ih c2 hc2⟩
        split
        next _ => exact ih _ ht'
        next _ => exact ht'

theorem pruneAux_rowPredict (F : ModelFamily P) :
    ∀ (f : Nat) (t : Tree P), coherentB F t = true → ∀ (row : List ℚ),
      rowPredict F (pruneAux F f t) row = rowPredict F t row := by
  intro f
  induction f with
  | zero => intro t _ row; rfl
  | succ f ih =>
    intro t hc row
    cases t with
    | leaf l nd ndim post => rfl
    | node l nd ndim post dim name v lnp blp c1 c2 =>
      rw [coherentB_node_iff] at hc
      obtain ⟨htop, hc1, hc2⟩ := hc
      rw [pruneAux]
      split
      next hA =>
        rw [Bool.and_eq_true] at hA
        split
        next hB =>
          have heq : F.predictLeaf post = F.predictLeaf c1.posterior := htop hB
          have hrhs : rowPredict F (Tree.node l nd ndim post dim name v lnp blp c1 c2) row
              = F.predictLeaf post := by
            simp only [rowPredict]
            split
            · rw [rowPredict_of_isLeafB F c1 hA.1, ← heq]
            · rw [rowPredict_of_isLeafB F c2 hA.2, ← hB, ← heq]
          split
          next _ => rw [pruneAux_leaf]; exact hrhs.symm
          next _ => exact hrhs.symm
        next hB =>
          split
          next hM => simp at hM
          next _ => rfl
      next hA =>
        have ht'c : coherentB F (Tree.node l nd ndim post dim name v lnp blp
            (pruneAux F f c1) (pruneAux F f c2)) = true := by
          rw [coherentB_node_iff, pruneAux_posterior, pruneAux_posterior]
          exact ⟨htop, pruneAux_coherent F f c1 hc1, pruneAux_coherent F f c2 hc2⟩
        have ht'r : rowPredict F (Tree.node l nd ndim post dim name v lnp blp
              (pruneAux F f c1) (pruneAux F f c2)) row
            = rowPredict F (Tree.node l nd ndim post dim name v lnp blp c1 c2) row := by
          simp only [rowPredict]
          split
          · exact ih c1 hc1 row
          · exact ih c2 hc2 row
        split
        next _ => rw [ih _ ht'c row]; exact ht'r
        next _ => exact ht'r

theorem predict_congr (F : ModelFamily P) (t₁ t₂ : Tree P)
    (hd : t₁.nDim = t₂.nDim)
    (hr : ∀ row, rowPredict F t₁ row = rowPredict F t₂ row) (inp : RawInput) :
    predict F (some t₁) inp = predict F (some t₂) inp := by
  simp only [predict, hd]
  split
  · rw [predictT_eq_map, predictT_eq_map]
    congr 1
    exact List.map_congr_left fun row _ => hr row
  · rfl

/-- C3 — pruning a fitted merge-coherent tree (the conjugate families of this
library make every fitted tree merge-coherent, see `coherentB`) changes no
row's prediction, and pruning an already-pruned tree is a no-op
(`base.py:180-198`). -/
theorem prune_preserves_predictions (F : ModelFamily P) (t : Tree P)
    (hc : coherentB F t = true) :
    (∀ inp, predict F (some (pruneTree F t)) inp = predict F (some t) inp) ∧
    pruneTree F (pruneTree F t) = pruneTree F t := by
  constructor
  · intro inp
    exact predict_congr F _ t (pruneAux_nDim F _ t)
      (pruneAux_rowPredict F _ t hc) inp
  · show pruneAux F (pruneTree F t).nLeaves (pruneTree F t) = pruneTree F t
    exact pruneAux_of_irreducible F _ _
      (pruneAux_irreducible F t.nLeaves t (le_refl _))

/-- Witness for `prune_preserves_predictions`: a coherent one-split tree whose
children agree collapses under pruning without changing any prediction. -/
theorem prune_preserves_predictions_witness :
    (predict trivialFamily (some (pruneTree trivialFamily demoCoherentTree))
        (.mat [[1], [2]])
      = predict trivialFamily (some demoCoherentTree) (.mat [[1], [2]])) ∧
    pruneTree trivialFamily (pruneTree trivialFamily demoCoherentTree)
      = pruneTree trivialFamily demoCoherentTree := by
  have h := prune_preserves_predictions trivialFamily demoCoherentTree
    (by with_unfolding_all decide)
  exact ⟨h.1 _, h.2⟩

/-! ## Split-value bounds -/

theorem getD_map_of_lt {α β : Type} (f : α → β) (l : List α) (i : Nat)
    (d : β) (d' : α) (h : i < l.length) :
    (l.map f).getD i d = f (l.getD i d') := by
  rw [List.getD_eq_getElem _ _ (by simpa using h), List.getD_eq_getElem _ _ h]
  simp

theorem take_getLastD (l : List Nat) (k : Nat) (h1 : 0 < k) (h2 : k ≤ l.length) :
    (l.take k).getLastD 0 = l.getD (k - 1) 0 := by
  rw [List.getLastD_eq_getLast?, List.getLast?_eq_getElem?]
  have hlen : (l.take k).length = k := by simp [h2]
  rw [hlen, List.getElem?_take, if_pos (by omega), List.getD_eq_getElem?_getD]

theorem drop_headD (l : List Nat) (k : Nat) (_h2 : k < l.length) :
    (l.drop k).headD 0 = l.getD k 0 := by
  rw [List.headD_eq_head?, List.head?_drop, List.getD_eq_getElem?_getD]

theorem getD_map_filterRow (si : List (List Nat)) (p : Nat → Bool) :
    ∀ (dim : Nat),
      (si.map fun l => l.filter p).getD dim [] = (si.getD dim []).filter p := by
  induction si with
  | nil => intro dim; simp
  | cons a t ih =>
    intro dim
    cases dim with
    | zero => rfl
    | succ d => simpa using ih d

theorem sortedRows_computeSortIndices (X : List (List ℚ)) :
    SortedRows X (computeSortIndices X) := by
  intro dim hdim
  rw [computeSortIndices, List.length_map, List.length_range] at hdim
  rw [computeSortIndices, getD_map_of_lt _ _ _ _ 0 (by simpa using hdim),
    List.getD_eq_getElem _ _ (by simpa using hdim), List.getElem_range]
  unfold argsortDim
  haveI : IsTrans Nat (fun i j => Xval X i dim ≤ Xval X j dim) :=
    ⟨fun a b c hab hbc => le_trans hab hbc⟩
  haveI : IsTotal Nat (fun i j => Xval X i dim ≤ Xval X j dim) :=
    ⟨fun a b => le_total _ _⟩
  exact List.sorted_insertionSort _ _

theorem sortedRows_filter (X : List (List ℚ)) (si : List (List Nat))
    (p : Nat → Bool) (hs : SortedRows X si) :
    SortedRows X (si.map fun l => l.filter p) := by
  intro dim hdim
  rw [List.length_map] at hdim
  rw [getD_map_filterRow]
  exact (hs dim hdim).sublist (List.filter_sublist _)

/-- C7 — for every split taken during fitting (any recursive `_fit` call on a
sorted index cache), the recorded `split_dimension` is a legal feature index
and `split_value` — the midpoint of the last feature value routed to `child1`
and the first routed to `child2` — lies strictly above every `split_dimension`
value of the training rows routed to `child1` (`row.take k`) and strictly
below every value of the rows routed to `child2` (`row.drop k`)
(`base_perpendicular.py:136-169`). -/
theorem split_value_strictly_between (F : ModelFamily P) (pp : ℚ)
    (X : List (List ℚ)) (y : List ℚ) (δ : ℚ) (nm : List String) (prior : P)
    (lvl : Nat) (si : List (List Nat)) (f : Nat)
    (hs : SortedRows X si)
    (lvl' nd : Nat) (ndim : Option Nat) (post : P) (dim : Nat) (name : String)
    (v lnp blp : ℚ) (c1 c2 : Tree P)
    (heq : fitAux F pp X y δ nm prior lvl si (f + 1)
      = Tree.node lvl' nd ndim post dim name v lnp blp c1 c2) :
    dim < (X.headD []).length ∧
    ∃ k, 0 < k ∧ k < (si.getD dim []).length ∧
      v = (Xval X (((si.getD dim []).take k).getLastD 0) dim
            + Xval X (((si.getD dim []).drop k).headD 0) dim) / 2 ∧
      (∀ i ∈ (si.getD dim []).take k, Xval X i dim < v) ∧
      (∀ i ∈ (si.getD dim []).drop k, v < Xval X i dim) := by
  rw [fitAux] at heq
  split at heq
  next hpos =>
    have hinv := (splitSearch_inv F prior X y si (X.headD []).length
      (F.logPDataNoSplit prior (ySorted0 y si))).2 hpos
    injection heq with hlvl hnd hndim hpost hdim hname hv hlnp hblp hc1 hc2
    subst hdim
    subst hv
    have khm := (splitPositions_mem _ _).mp hinv.2.2
    set st := splitSearch F prior X y si (X.headD []).length
      (F.logPDataNoSplit prior (ySorted0 y si)) with hst
    set dimv := st.bestDim.toNat with hdimv
    set row := si.getD dimv [] with hrow
    set k := st.bestIdx.toNat with hk
    have hklen : k < row.length := by
      have := khm.2.1
      simpa using this
    have hkpos : 1 ≤ k := khm.1
    have hpair : List.Pairwise (fun i j => Xval X i dimv ≤ Xval X j dimv) row := by
      have hdlen : dimv < si.length := by
        by_contra hout
        have hempty : row = [] := by
          rw [hrow]
          exact List.getD_eq_default _ _ (le_of_not_lt hout)
        rw [hempty] at hklen
        simp at hklen
      exact hs dimv hdlen
    have hmono : ∀ (p q : Nat) (hp : p < row.length) (hq : q < row.length),
        p ≤ q → Xval X row[p] dimv ≤ Xval X row[q] dimv := by
      intro p q hp hq hpq
      rcases Nat.eq_or_lt_of_le hpq with rfl | hlt
      · exact le_refl _
      · have := List.pairwise_iff_get.mp hpair ⟨p, hp⟩ ⟨q, hq⟩ hlt
        simpa using this
    have hkm1 : k - 1 < row.length := by omega
    have hne : Xval X (row[k]) dimv ≠ Xval X (row[k - 1]) dimv := by
      have h0 := khm.2.2
      rw [getD_map_of_lt (fun i => Xval X i dimv) row k 0 0 hklen,
        getD_map_of_lt (fun i => Xval X i dimv) row (k - 1) 0 0 hkm1,
        List.getD_eq_getElem _ _ hklen, List.getD_eq_getElem _ _ hkm1] at h0
      exact h0
    have hstrict : Xval X (row[k - 1]) dimv < Xval X (row[k]) dimv :=
      lt_of_le_of_ne (hmono (k - 1) k hkm1 hklen (by omega)) (Ne.symm hne)
    have hvval : (Xval X ((row.take k).getLastD 0) dimv
          + Xval X ((row.drop k).headD 0) dimv) / 2
        = (Xval X (row[k - 1]) dimv + Xval X (row[k]) dimv) / 2 := by
      rw [take_getLastD row k hkpos (le_of_lt hklen), drop_headD row k hklen,
        List.getD_eq_getElem _ _ hkm1, List.getD_eq_getElem _ _ hklen]
    refine ⟨hinv.2.1, k, by omega, hklen, rfl, ?_, ?_⟩
    · intro i hi
      obtain ⟨p, hp, hpi⟩ := List.mem_iff_getElem.mp hi
      have htlen : (row.take k).length = k := by
        simp [le_of_lt hklen]
      have hpk : p < k := htlen ▸ hp
      have hpr : p < row.length := by omega
      have hival : i = row[p] := by
        rw [← hpi, List.getElem_take]
      rw [hival, hvval]
      have h1 := hmono p (k - 1) hpr hkm1 (by omega)
      linarith
    · intro i hi
      obtain ⟨p, hp, hpi⟩ := List.mem_iff_getElem.mp hi
      have hdlen2 : (row.drop k).length = row.length - k := by simp
      have hpr : k + p < row.length := by omega
      have hival : i = row[k + p] := by
        rw [← hpi, List.getElem_drop]
      rw [hival, hvval]
      have h1 := hmono k (k + p) (by omega) hpr (by omega)
      linarith
  next =>
    simp [unsplitLeaf] at heq

/-- Witness for `split_value_strictly_between`: the demo split takes
`split_value = 5/2`, strictly above the `child1` values `{1, 2}` and strictly
below the `child2` values `{3, 4}`. -/
theorem split_value_strictly_between_witness :
    (0 : Nat) < (demoX.headD []).length ∧
    ∃ k, 0 < k ∧ k < (([[0, 1, 2, 3]] : List (List Nat)).getD 0 []).length ∧
      (5 / 2 : ℚ)
        = (Xval demoX (((([[0, 1, 2, 3]] : List (List Nat)).getD 0 []).take k).getLastD 0) 0
            + Xval demoX (((([[0, 1, 2, 3]] : List (List Nat)).getD 0 []).drop k).headD 0) 0) / 2 ∧
      (∀ i ∈ (([[0, 1, 2, 3]] : List (List Nat)).getD 0 []).take k,
        Xval demoX i 0 < (5 / 2 : ℚ)) ∧
      (∀ i ∈ (([[0, 1, 2, 3]] : List (List Nat)).getD 0 []).drop k,
        (5 / 2 : ℚ) < Xval demoX i 0) := by
  exact split_value_strictly_between trivialFamily 1 demoX demoY 0 ["x0"]
    ([] : List ℚ) 0 [[0, 1, 2, 3]] 3
    (by
      intro dim hdim
      simp only [List.length_cons, List.length_nil] at hdim
      have hd0 : dim = 0 := by omega
      subst hd0
      with_unfolding_all decide)
    0 4 (some 1) [0, 0, 1, 1] 0 "x0" (5 / 2) (-1) (-1 / 4)
    (Tree.leaf 1 2 none [0, 0]) (Tree.leaf 1 2 none [1, 1])
    (by with_unfolding_all decide)

/-! ## Prediction paths -/

theorem zipWith_fst {α β : Type} :
    ∀ (l1 : List α) (l2 : List β), l1.length = l2.length →
      List.zipWith (fun a _ => a) l1 l2 = l1 := by
  intro l1
  induction l1 with
  | nil => intro l2 _; rfl
  | cons a t ih =>
    intro l2 hlen
    cases l2 with
    | nil => simp at hlen
    | cons b t2 =>
      simp only [List.zipWith_cons_cons]
      rw [ih t2 (by simpa using hlen)]

theorem zipWith_map_same {α β γ δ : Type} (h : β → γ → δ) (f : α → β)
    (g : α → γ) : ∀ (l : List α),
      List.zipWith h (l.map f) (l.map g) = l.map fun x => h (f x) (g x) := by
  intro l
  induction l with
  | nil => rfl
  | cons a t ih => simp [ih]

theorem zipWith_map_left_self {α β : Type} (h : β → α → β) (f : α → β) :
    ∀ (l : List α), List.zipWith h (l.map f) l = l.map fun x => h (f x) x := by
  intro l
  induction l with
  | nil => rfl
  | cons a t ih => simp [ih]

theorem applyAt_length {α : Type} (d : α) (base : List α) (idxs : List Nat)
    (f : α → α) : (applyAt d base idxs f).length = base.length := by
  simp [applyAt]

theorem scatterAt_length {α : Type} (d : α) (base : List α) (idxs : List Nat)
    (vals : List α) : (scatterAt d base idxs vals).length = base.length := by
  simp [scatterAt]

theorem rowPath_of_isLeafB (t : Tree P) (h : t.isLeafB = true) (row : List ℚ) :
    rowPath t row = [] := by
  cases t with
  | leaf l nd ndim post => rfl
  | node l nd ndim post dim name v lnp blp c1 c2 => simp [Tree.isLeafB] at h

/-- `_update_prediction_paths` appends, to each row's path independently, the
steps of exactly the split nodes that row passes through, in root-to-leaf
order. -/
theorem updatePredictionPaths_eq (F : ModelFamily P) :
    ∀ (t : Tree P) (X : List (List ℚ)) (paths : List (List PathStep)),
      paths.length = X.length →
      updatePredictionPaths F t X paths
        = List.zipWith (fun p row => p ++ rowPath t row) paths X := by
  intro t
  induction t with
  | leaf l nd ndim post =>
    intro X paths hlen
    show paths = _
    simp only [rowPath, List.append_nil]
    exact (zipWith_fst paths X hlen).symm
  | node l nd ndim post dim name v lnp blp c1 c2 ih1 ih2 =>
    intro X paths hlen
    obtain ⟨-, -, -, hmem⟩ := childIndices_spec X dim v
    set idx1 := (computeChild1AndChild2Indices X dim v).1 with hidx1
    set idx2 := (computeChild1AndChild2Indices X dim v).2 with hidx2
    set s1 : PathStep := (dim, name, v, false) with hs1
    set s2 : PathStep := (dim, name, v, true) with hs2
    set pathsA := applyAt [] paths idx1 (fun p => p ++ [s1]) with hAdef
    set pathsB := applyAt [] pathsA idx2 (fun p => p ++ [s2]) with hBdef
    set pathsC := (if idx1.isEmpty || c1.isLeafB then pathsB
      else scatterAt [] pathsB idx1
        (updatePredictionPaths F c1 (gatherRows X idx1)
          (idx1.map fun i => pathsB.getD i []))) with hCdef
    have hunfold : updatePredictionPaths F
          (Tree.node l nd ndim post dim name v lnp blp c1 c2) X paths
        = (if idx2.isEmpty || c2.isLeafB then pathsC
           else scatterAt [] pathsC idx2
             (updatePredictionPaths F c2 (gatherRows X idx2)
               (idx2.map fun i => pathsC.getD i []))) := rfl
    have hAlen : pathsA.length = X.length := by
      rw [hAdef, applyAt_length]; exact hlen
    have hBlen : pathsB.length = X.length := by
      rw [hBdef, applyAt_length]; exact hAlen
    have hClen : pathsC.length = X.length := by
      rw [hCdef]
      split
      · exact hBlen
      · rw [scatterAt_length]; exact hBlen
    have hBget : ∀ i, i < X.length →
        pathsB.getD i [] = paths.getD i []
          ++ [if Xval X i dim < v then s1 else s2] := by
      intro i hi
      have hgA : pathsA.getD i []
          = if i ∈ idx1 then paths.getD i [] ++ [s1] else paths.getD i [] := by
        rw [hAdef]
        show (applyAt [] paths idx1 (fun p => p ++ [s1])).getD i [] = _
        unfold applyAt
        rw [getD_range_map _ _ _ _ (by omega)]
      have hgB : pathsB.getD i []
          = if i ∈ idx2 then pathsA.getD i [] ++ [s2] else pathsA.getD i [] := by
        rw [hBdef]
        show (applyAt [] pathsA idx2 (fun p => p ++ [s2])).getD i [] = _
        unfold applyAt
        rw [getD_range_map _ _ _ _ (by omega)]
      obtain ⟨hc1, hc2, -⟩ := hmem i
      by_cases hv : Xval X i dim < v
      · have h1 : i ∈ idx1 := hc1.mpr ⟨hi, hv⟩
        have h2 : i ∉ idx2 := fun hm => absurd (hc2.mp hm).2 (not_le.mpr hv)
        rw [hgB, if_neg h2, hgA, if_pos h1, if_pos hv]
      · have h2 : i ∈ idx2 := hc2.mpr ⟨hi, not_lt.mp hv⟩
        have h1 : i ∉ idx1 := fun hm => absurd (hc1.mp hm).2 hv
        rw [hgB, if_pos h2, hgA, if_neg h1, if_neg hv]
    have hCget : ∀ i, i < X.length →
        pathsC.getD i [] = pathsB.getD i []
          ++ (if i ∈ idx1 then rowPath c1 (X.getD i []) else []) := by
      intro i hi
      rw [hCdef]
      by_cases hg : (idx1.isEmpty || c1.isLeafB) = true
      · rw [if_pos hg]
        rcases Bool.or_eq_true_iff.mp hg with hge | hgl
        · have hnil : idx1 = [] := List.isEmpty_iff.mp hge
          rw [hnil]
          simp
        · have hrp : rowPath c1 (X.getD i []) = [] := rowPath_of_isLeafB c1 hgl _
          rw [hrp]
          simp
      · rw [if_neg hg]
        have hrec : updatePredictionPaths F c1 (gatherRows X idx1)
              (idx1.map fun j => pathsB.getD j [])
            = idx1.map fun j => pathsB.getD j [] ++ rowPath c1 (X.getD j []) := by
          rw [ih1 _ _ (by simp [gatherRows])]
          show List.zipWith _ (idx1.map fun j => pathsB.getD j [])
            (idx1.map fun j => X.getD j []) = _
          rw [zipWith_map_same]
        rw [hrec, scatterAt_map]
        rw [getD_range_map _ _ _ _ (by omega)]
        by_cases hin : i ∈ idx1
        · rw [if_pos hin, if_pos hin]
        · rw [if_neg hin, if_neg hin, List.append_nil]
    have hDget : ∀ i, i < X.length →
        (updatePredictionPaths F
            (Tree.node l nd ndim post dim name v lnp blp c1 c2) X paths).getD i []
          = pathsC.getD i []
            ++ (if i ∈ idx2 then rowPath c2 (X.getD i []) else []) := by
      intro i hi
      rw [hunfold]
      by_cases hg : (idx2.isEmpty || c2.isLeafB) = true
      · rw [if_pos hg]
        rcases Bool.or_eq_true_iff.mp hg with hge | hgl
        · have hnil : idx2 = [] := List.isEmpty_iff.mp hge
          rw [hnil]
          simp
        · have hrp : rowPath c2 (X.getD i []) = [] := rowPath_of_isLeafB c2 hgl _
          rw [hrp]
          simp
      · rw [if_neg hg]
        have hrec : updatePredictionPaths F c2 (gatherRows X idx2)
              (idx2.map fun j => pathsC.getD j [])
            = idx2.map fun j => pathsC.getD j [] ++ rowPath c2 (X.getD j []) := by
          rw [ih2 _ _ (by simp [gatherRows])]
          show List.zipWith _ (idx2.map fun j => pathsC.getD j [])
            (idx2.map fun j => X.getD j []) = _
          rw [zipWith_map_same]
        rw [hrec, scatterAt_map]
        rw [getD_range_map _ _ _ _ (by omega)]
        by_cases hin : i ∈ idx2
        · rw [if_pos hin, if_pos hin]
        · rw [if_neg hin, if_neg hin, List.append_nil]
    have hDlen : (updatePredictionPaths F
          (Tree.node l nd ndim post dim name v lnp blp c1 c2) X paths).length
        = X.length := by
      rw [hunfold]
      split
      · exact hClen
      · rw [scatterAt_length]; exact hClen
    refine List.ext_getElem ?_ fun i h1 h2 => ?_
    · rw [hDlen, List.length_zipWith]
      omega
    · have hiX : i < X.length := by rw [hDlen] at h1; exact h1
      have hip : i < paths.length := by omega
      rw [List.getElem_zipWith]
      have hgetD : (updatePredictionPaths F
            (Tree.node l nd ndim post dim name v lnp blp c1 c2) X paths)[i]
          = (updatePredictionPaths F
            (Tree.node l nd ndim post dim name v lnp blp c1 c2) X paths).getD i [] :=
        (List.getD_eq_getElem _ _ h1).symm
      rw [hgetD, hDget i hiX, hCget i hiX, hBget i hiX]
      have hpget : paths.getD i [] = paths[i] := List.getD_eq_getElem _ _ hip
      have hXget : X.getD i [] = X[i] := List.getD_eq_getElem _ _ hiX
      obtain ⟨hc1, hc2, -⟩ := hmem i
      have hrp : rowPath (Tree.node l nd ndim post dim name v lnp blp c1 c2) X[i]
          = if (X[i]).getD dim 0 < v then s1 :: rowPath c1 X[i]
            else s2 :: rowPath c2 X[i] := rfl
      by_cases hv : Xval X i dim < v
      · have h1' : i ∈ idx1 := hc1.mpr ⟨hiX, hv⟩
        have h2' : i ∉ idx2 := fun hm => absurd (hc2.mp hm).2 (not_le.mpr hv)
        have hvv : (X[i]).getD dim 0 < v := by
          have h' := hv; unfold Xval at h'; rwa [hXget] at h'
        rw [if_pos hv, if_pos h1', if_neg h2', hpget, hXget, hrp, if_pos hvv,
          List.append_nil]
        simp
      · have h2' : i ∈ idx2 := hc2.mpr ⟨hiX, not_lt.mp hv⟩
        have h1' : i ∉ idx1 := fun hm => absurd (hc1.mp hm).2 hv
        have hvv : ¬ (X[i]).getD dim 0 < v := by
          have h' := hv; unfold Xval at h'; rwa [hXget] at h'
        rw [if_neg hv, if_neg h1', if_pos h2', hpget, hXget, hrp, if_neg hvv,
          List.append_nil]
        simp

/-- C8 — `prediction_paths(X)` returns one path per row: the ordered
root-to-leaf sequence of `(split_dimension, split_feature_name, split_value,
went_right)` steps for exactly the split nodes that row passes through, with
`went_right` true iff the row's value at the split dimension is
`≥ split_value` (`base_perpendicular.py:21-75`). -/
theorem prediction_paths_per_row (F : ModelFamily P) (t : Tree P)
    (r : List ℚ) (rs : List (List ℚ)) (h : t.nDim = some r.length) :
    predictionPaths F (some t) (.mat (r :: rs))
      = .ok ((r :: rs).map (rowPath t)) := by
  simp only [predictionPaths, normalizeDataAndFeatureNames, List.headD_cons, h,
    if_pos rfl]
  rw [updatePredictionPaths_eq F t (r :: rs) ((r :: rs).map fun _ => [])
    (by simp)]
  rw [zipWith_map_left_self]
  simp

/-- Witness for `prediction_paths_per_row`: on the fitted demo tree the four
rows produce the four one-step paths through the root split, left rows with
`went_right = false` and right rows with `went_right = true`. -/
theorem prediction_paths_per_row_witness :
    predictionPaths trivialFamily
        (some (fitTree trivialFamily 1 demoX demoY 0 ["x0"] ([] : List ℚ)))
        (.mat demoX)
      = .ok (demoX.map (rowPath
          (fitTree trivialFamily 1 demoX demoY 0 ["x0"] ([] : List ℚ)))) := by
  exact prediction_paths_per_row trivialFamily _ [1] [[2], [3], [4]]
    (by with_unfolding_all decide)

end BayesTree
